import Mathlib

/-!
Verification of the LauraGPT / WavLM-TSE repository.

Shallow embedding of the tensor bookkeeping in
`exp/tse_wavlm/model.py` (class `LauraGenModel`),
`decoder/wavlm_kmeans_conformer.py` (class `WavLMKmeansConformer`) and
`models/modules/lm_discrete.py` (`positionalencoding1d`,
`CrossAttentionDecoderBlock`).

Batched tensors of shape (B, T, E) are modelled as `List (List E)` with an
abstract element type `E`; integer length tensors as `List ℕ`; scalar values
as `ℚ`.  External neural modules (the k-means embedding table, the codec
language model, the Conformer, loss kernels) are abstract function
parameters, as they are out-of-scope dependencies of the repository.
-/

namespace LauraTSE

/-- Maximum of the row lengths of a batch, i.e. the padded time dimension. -/
def maxLen {E : Type} (xs : List (List E)) : ℕ :=
  (xs.map List.length).foldr Nat.max 0

/-- `funcodec.modules.nets_utils.pad_list`: stack variable-length rows into
one batch, padding each row with `pad` up to the longest row length. -/
def pad_list {E : Type} (xs : List (List E)) (pad : E) : List (List E) :=
  xs.map (fun x => x ++ List.replicate (maxLen xs - x.length) pad)

/-- Maximum of a list of natural numbers (`tensor.max()`), 0 on empty. -/
def natMax (l : List ℕ) : ℕ := l.foldr Nat.max 0

/-- `funcodec.modules.nets_utils.make_pad_mask`: `mask[i][t]` is true exactly
when `t >= lengths[i]`; the time dimension is the maximum of `lengths`. -/
def make_pad_mask (lengths : List ℕ) : List (List Bool) :=
  lengths.map (fun l => (List.range (natMax lengths)).map (fun t => decide (l ≤ t)))

/-- `LauraGenModel._pad_two`: concatenate the valid prefixes of two padded
batches row by row and re-pad with zeros (`pad_list(..., 0.0)`, the zero is
`padE` here); the result lengths are the sums of the two length vectors.
The Python `zip(t1_lens, t2_lens)` call truncates to the shorter length vector. -/
def _pad_two {E : Type} (padE : E) (t1 : List (List E)) (t1_lens : List ℕ)
    (t2 : List (List E)) (t2_lens : List ℕ) : List (List E) × List ℕ :=
  let inputs_list := (List.range (min t1_lens.length t2_lens.length)).map
    (fun i => (t1.getD i []).take (t1_lens.getD i 0)
      ++ (t2.getD i []).take (t2_lens.getD i 0))
  (pad_list inputs_list padE, List.zipWith (fun a b => a + b) t1_lens t2_lens)

/-- `LauraGenModel.__init__`: `self.sos_eos = 0`. -/
def sos_eos : ℕ := 0

/-- `LauraGenModel.__init__`: `self.task_id = 1`. -/
def task_id : ℕ := 1

/-- `LauraGenModel.calc_dense_vector`: asserts the codec has exactly one
codebook (`codec.shape[-1] == 1`, modelled as every token group being a
singleton; `none` is the failed assertion), squeezes the last dimension and
embeds every token through the k-means embedding table `kmeansEmb`
(`self.kmeans.emb`, an external checkpointed module kept abstract). -/
def calc_dense_vector {E : Type} (kmeansEmb : ℤ → E)
    (codec : List (List (List ℤ))) : Option (List (List E)) :=
  if codec.all (fun row => row.all (fun g => g.length = 1)) then
    some (codec.map (fun row => row.map (fun g => kmeansEmb (g.headD 0))))
  else none

/-- Result record of `LauraGenModel.build_llm_io`: with `need_targets=False`
the source returns `(llm_inputs, llm_lengths)` (here `targets` and
`targetLengths` are `none`), with `need_targets=True` it returns
`((llm_inputs, llm_targets), (llm_lengths, codec_lengths + 1))`. -/
structure LlmIo (E : Type) where
  inputs : List (List E)
  lengths : List ℕ
  targets : Option (List (List (List ℤ)))
  targetLengths : Option (List ℕ)

/-- `LauraGenModel.build_llm_io`.  `lmEmbedding` is `self.lm_embedding`
(an `nn.Embedding(2, dim)` kept abstract), `padE` models the `0.0` padding
value of `pad_list`.  The outer `none` models the `need_targets=True`
assertion failure when `codec` or `codec_lengths` is `None`, and the
propagated assertion of `calc_dense_vector`.  Per the source, the input row of each example is `[sos_eos_emb, text[i, :text_len], task_id_emb]` with
`codec_emb[i, :codec_lengths[i]]` appended when the codec is given;
`llm_lengths = text_lengths + 2 (+ codec_lengths)`.  The target tensor is
`torch.zeros([B, max(codec_lengths)+1, predict_nq])` overwritten row by row
with `codec[i, :codec_len]` (broadcast over `predict_nq`) followed by the
EOS id `codebook_size + sos_eos` at position `codec_len`; rows `i` beyond
`len(codec_lengths)` keep their zeros. -/
def build_llm_io {E : Type} (lmEmbedding : ℕ → E) (kmeansEmb : ℤ → E)
    (padE : E) (predict_nq codebook_size : ℕ)
    (text : List (List E)) (text_lengths : List ℕ)
    (codec : Option (List (List (List ℤ))))
    (codec_lengths : Option (List ℕ))
    (need_targets : Bool) : Option (LlmIo E) :=
  if need_targets && (codec.isNone || codec_lengths.isNone) then none
  else
    match codec, codec_lengths with
    | some c, some cl =>
      match calc_dense_vector kmeansEmb c with
      | none => none
      | some ce =>
        let inputs_list := (List.range text_lengths.length).map (fun i =>
          [lmEmbedding sos_eos] ++ (text.getD i []).take (text_lengths.getD i 0)
            ++ [lmEmbedding task_id] ++ (ce.getD i []).take (cl.getD i 0))
        let llm_inputs := pad_list inputs_list padE
        let llm_lengths := List.zipWith (fun a b => a + 2 + b) text_lengths cl
        if need_targets then
          let bb := text.length
          let tt := natMax cl + 1
          let targets := (List.range bb).map (fun i =>
            if i < cl.length then
              (List.range tt).map (fun t =>
                if t < cl.getD i 0 then
                  List.replicate predict_nq (((c.getD i []).getD t []).headD 0)
                else if t = cl.getD i 0 then
                  List.replicate predict_nq
                    ((codebook_size : ℤ) + (sos_eos : ℤ))
                else List.replicate predict_nq 0)
            else List.replicate tt (List.replicate predict_nq 0))
          some ⟨llm_inputs, llm_lengths, some targets, some (cl.map (· + 1))⟩
        else some ⟨llm_inputs, llm_lengths, none, none⟩
    | _, _ =>
      let inputs_list := (List.range text_lengths.length).map (fun i =>
        [lmEmbedding sos_eos] ++ (text.getD i []).take (text_lengths.getD i 0)
          ++ [lmEmbedding task_id])
      some ⟨pad_list inputs_list padE, text_lengths.map (· + 2), none, none⟩

/-- One iteration body of the decoding loop of `LauraGenModel.decode_codec`:
`top_ids` collects one sampled token id per quantizer
(`for k in range(self.predict_nq)`), so each appended group has exactly
`predict_nq` ids.  The oracle `sample` abstracts `self.codec_lm.score`
followed by `self.sampling_ids` (an external neural network plus random
sampling); the current token list determines the LM input `seq_input`
built by `build_llm_io` (text and prompt are fixed), so the oracle is a
function of the token list and the quantizer index `k`. -/
def decodeGroup (sample : List (List ℕ) → ℕ → ℕ) (predict_nq : ℕ)
    (toks : List (List ℕ)) : List ℕ :=
  (List.range predict_nq).map (fun k => sample toks k)

/-- The `for i in range(max_length)` loop of `decode_codec`: when
`out_tokens` is non-empty and its last group contains the EOS id
(`torch.any(codec_prompt[:, -1] == self.codebook_size + self.sos_eos)`)
the loop breaks, otherwise it appends one sampled group of
`predict_nq` token ids. -/
def decodeLoop (eos : ℕ) (sample : List (List ℕ) → ℕ → ℕ)
    (predict_nq : ℕ) : ℕ → List (List ℕ) → List (List ℕ)
  | 0, toks => toks
  | fuel + 1, toks =>
    if toks ≠ [] ∧ eos ∈ toks.getLastD [] then toks
    else decodeLoop eos sample predict_nq fuel
      (toks ++ [decodeGroup sample predict_nq toks])

/-- `LauraGenModel.decode_codec` around the loop: `out_tokens` starts as a
copy of `continual` (empty when `None`); after the loop, `out_tokens[-1]`
raises `IndexError` on an empty token list (modelled by `none`), a trailing
group containing the EOS id is removed, and the final
`torch.tensor([out_tokens])[:, aux.size(1):]` evaluates `aux.size(1)`
unconditionally — it raises `AttributeError` when `aux` is `None`
(modelled by `auxLen = none ↦ none`) and otherwise drops the first
`aux.size(1)` token groups. -/
def decode_codec (eos : ℕ) (sample : List (List ℕ) → ℕ → ℕ)
    (predict_nq max_length : ℕ) (auxLen : Option ℕ)
    (continual : Option (List (List ℕ))) : Option (List (List ℕ)) :=
  let toks := decodeLoop eos sample predict_nq max_length (continual.getD [])
  match toks.getLast? with
  | none => none
  | some last =>
    let toks2 := if eos ∈ last then toks.dropLast else toks
    match auxLen with
    | none => none
    | some a => some (toks2.drop a)

/-- `weighted_scores.softmax(dim=0).sort(descending=True, stable=True)` in
the float branch of `LauraGenModel.sampling_ids`, keeping the original
indices (the pair `sorted_value, sorted_idx`): a stable sort of the
(value, index) pairs by descending value. -/
def sortedIdxDesc (pr : List ℚ) : List (ℚ × ℕ) :=
  (pr.zip (List.range pr.length)).insertionSort (fun a b => b.1 ≤ a.1)

/-- `tensor.topk(k)`: the `k` largest entries in descending order together
with their indices, modelled as the first `k` entries of the descending
stable sort. -/
def topkDesc (pr : List ℚ) (k : ℕ) : List (ℚ × ℕ) :=
  (sortedIdxDesc pr).take k

/-- The accumulation loop of the float (nucleus) branch of `sampling_ids`:
`for i in range(len(sorted_idx)): if cum_prob < sampling: take else break`,
keeping (value, index) pairs while the accumulated probability `c` is
still below `p`. -/
def cumTake (p : ℚ) : List (ℚ × ℕ) → ℚ → List (ℚ × ℕ)
  | [], _ => []
  | x :: xs, c => if c < p then x :: cumTake p xs (c + x.1) else []

/-- The `sampling` argument of `sampling_ids`: a Python value of type
`bool`, `int`, `float`, or anything else. -/
inductive SamplingArg where
  | boolArg : Bool → SamplingArg
  | intArg : ℕ → SamplingArg
  | floatArg : ℚ → SamplingArg
  | otherArg : SamplingArg
deriving DecidableEq

/-- `LauraGenModel.sampling_ids`.  `softmaxF` abstracts
`weighted_scores.softmax(dim=0)` (real-valued exponentials, kept abstract)
and `mult pr n` abstracts `pr.multinomial(n, replacement=True)` (random
choice of `n` indices into `pr`).  Python checks `isinstance(sampling,
bool)` before `int` (bool is an int subclass), so the four branches are
disjoint, and only the final `else` raises `NotImplementedError`.  The
`.error "RuntimeError"` cases model the torch runtime errors of
`multinomial` on an empty distribution and of `topk` with `k` larger than
the tensor size. -/
def sampling_ids (softmaxF : List ℚ → List ℚ) (mult : List ℚ → ℕ → List ℕ)
    (weighted_scores : List ℚ) (sampling : SamplingArg) (beam_size : ℕ) :
    Except String (List ℕ) :=
  match sampling with
  | .boolArg true =>
    let pr := softmaxF weighted_scores
    if pr = [] then .error "RuntimeError" else .ok (mult pr beam_size)
  | .boolArg false =>
    if beam_size ≤ weighted_scores.length then
      .ok ((topkDesc weighted_scores beam_size).map (fun v => v.2))
    else .error "RuntimeError"
  | .intArg k =>
    let pr := softmaxF weighted_scores
    if 0 < k ∧ k ≤ pr.length then
      let top := topkDesc pr k
      let ids := mult (top.map (fun v => v.1)) beam_size
      .ok (ids.map (fun j => (top.map (fun v => v.2)).getD j 0))
    else .error "RuntimeError"
  | .floatArg p =>
    let pr := softmaxF weighted_scores
    let chosen := cumTake p (sortedIdxDesc pr) 0
    if chosen = [] then .error "RuntimeError"
    else
      let ids := mult (chosen.map (fun v => v.1)) beam_size
      .ok (ids.map (fun j => (chosen.map (fun v => v.2)).getD j 0))
  | .otherArg => .error "NotImplementedError"

/-- `models/modules/lm_discrete.positionalencoding1d`.  The transcendental
kernels are abstract parameters: `sinF`, `cosF`, `expF`, `logF` model
`torch.sin`, `torch.cos`, `torch.exp` and `math.log` over real scalars.
The `ValueError` on odd `d_model` is the `.error` case.  For even columns
`c = 2i` the entry at `(pos, c)` is `sin(pos * div_term[i])`, for odd
columns `c = 2i+1` it is `cos(pos * div_term[i])`, with
`div_term[i] = exp((2i) * (-(log 10000 / d_model)))`
(`torch.arange(0, d_model, 2) * -(math.log(10000.0) / d_model)`). -/
def positionalencoding1d (sinF cosF expF logF : ℚ → ℚ)
    (d_model length : ℕ) : Except String (List (List ℚ)) :=
  if d_model % 2 ≠ 0 then .error "ValueError"
  else .ok ((List.range length).map (fun pos : ℕ =>
    (List.range d_model).map (fun c : ℕ =>
      let dt := expF (((2 * (c / 2) : ℕ) : ℚ)
        * (-(logF 10000 / (d_model : ℚ))))
      if c % 2 = 0 then sinF ((pos : ℚ) * dt) else cosF ((pos : ℚ) * dt))))

/-- The module kinds `CrossAttentionDecoderBlock.__init__` puts into its
two `nn.Sequential` stacks: a single `nn.Identity()` or a
`SelmTransformerDecoderLayer` (numbered; each loop iteration builds a fresh
module). -/
inductive SelmModule where
  | identity : SelmModule
  | decoderLayer : ℕ → SelmModule
deriving DecidableEq

/-- `CrossAttentionDecoderBlock.__init__`: with `num_layers == 0` the stack
is `[nn.Identity()]`, otherwise it is
`[SelmTransformerDecoderLayer(...) for _ in range(0, num_layers - 1)]` —
note the `- 1`.  The same construction is used for `num_layers_regi`
(`layers_regi`). -/
def crossBlockLayers (num_layers : ℕ) : List SelmModule :=
  if num_layers = 0 then [SelmModule.identity]
  else (List.range (num_layers - 1)).map SelmModule.decoderLayer

/-- `nn.Sequential`: apply the stacked modules in order, under an
interpretation `interp` of each module as a function. -/
def runSequential {α : Type} (interp : SelmModule → α → α)
    (ms : List SelmModule) (x : α) : α :=
  ms.foldl (fun a m => interp m a) x

/-- `CrossAttentionDecoderBlock.forward` on the pair `(x, regi)`: `cross`
abstracts the single `SelmTransformerDecoderCrossAttentionLayer`, which is
applied exactly once; the two self-attention stacks come from
`crossBlockLayers`. -/
def crossBlockForward {α : Type} (interp : SelmModule → α → α)
    (cross : α → α → α) (cross_first : Bool)
    (num_layers num_layers_regi : ℕ) (x regi : α) : α × α :=
  let layers := crossBlockLayers num_layers
  let layers_regi := crossBlockLayers num_layers_regi
  if cross_first then
    let x1 := cross x regi
    let regi1 := runSequential interp layers_regi regi
    (runSequential interp layers x1, regi1)
  else
    let x1 := runSequential interp layers x
    let regi1 := runSequential interp layers_regi regi
    (cross x1 regi1, regi1)

/-- Python `int()` truncation toward zero on a rational, as applied to
`int(emb.size(1) * mask_ratio)` in `WavLMKmeansConformer.forward` (for the
non-negative ratios of interest this is the floor). -/
def pyInt (q : ℚ) : ℤ := q.num / (q.den : ℤ)

/-- `decoder/wavlm_kmeans_conformer.WavLMKmeansConformer.forward`.
External modules are abstract: `kmeans` is the per-frame nearest-centroid
token lookup `self.kmeans`, `kmeansEmb` the centroid embedding table
`self.kmeans.emb`, `conformer` the Conformer (which keeps the batch/time
shape), `maskEmb` the learned `self.mask_emb` vector, and `mseLoss` /
`ssimLoss` the `F.mse_loss` / `ssim` kernels.  `perm` models the
`torch.randperm(emb.size(1))` draw; `mask_index = perm[:num_mask]` with
`num_mask = int(T * mask_ratio)`, and the same masked time positions are
overwritten with `maskEmb` in every batch row
(`emb[:, mask_index] = self.mask_emb`).  With `mask_ratio` `None` or `0.0`
the embedding is left unchanged.  The pipeline is: (masked) embedding →
k-means tokens (`clean_token`) → k-means embedding lookup → Conformer;
the returned tuple is `(res, emb, mse + ssim, mse, ssim)` where `emb` is
the (mutated) input embedding and the losses compare `res` against the
clone `clean_emb` taken before masking. -/
def wavlmForward {E : Type} (kmeans : E → ℕ) (kmeansEmb : ℕ → E)
    (conformer : List (List E) → List (List E)) (maskEmb : E)
    (mseLoss ssimLoss : List (List E) → List (List E) → ℚ)
    (perm : List ℕ) (emb : List (List E)) (mask_ratio : Option ℚ) :
    List (List E) × List (List E) × ℚ × ℚ × ℚ :=
  let T := (emb.headD []).length
  let clean_emb := emb
  let emb2 :=
    match mask_ratio with
    | none => emb
    | some r =>
      if r = 0 then emb
      else
        let num_mask := (pyInt ((T : ℚ) * r)).toNat
        let mask_index := perm.take num_mask
        emb.map (fun row => (List.range row.length).map (fun t =>
          if t ∈ mask_index then maskEmb else row.getD t maskEmb))
  let clean_token := emb2.map (fun row => row.map kmeans)
  let embedding := clean_token.map (fun row => row.map kmeansEmb)
  let res := conformer embedding
  let mse := mseLoss res clean_emb
  let ss := ssimLoss res clean_emb
  (res, emb2, mse + ss, mse, ss)

/-- The data-parallel truncation and `build_llm_io` call at the start of
`LauraGenModel.nll`: `text = text[:, :text_lengths.max()]`,
`codec = codec[:, :codec_lengths.max()]`, then
`build_llm_io(text, text_lengths, codec, codec_lengths, need_targets=True)`.
-/
def nllPrep {E : Type} (lmEmbedding : ℕ → E) (kmeansEmb : ℤ → E) (padE : E)
    (predict_nq codebook_size : ℕ) (text : List (List E))
    (text_lengths : List ℕ) (codec : List (List (List ℤ)))
    (codec_lengths : List ℕ) : Option (LlmIo E) :=
  build_llm_io lmEmbedding kmeansEmb padE predict_nq codebook_size
    (text.map (fun r => r.take (natMax text_lengths))) text_lengths
    (some (codec.map (fun r => r.take (natMax codec_lengths))))
    (some codec_lengths) true

/-- `sequence = sequence[:, :x_lengths.max()]` in `LauraGenModel.nll`. -/
def nllSeqOf {E : Type} (io : LlmIo E) : List (List E) :=
  io.inputs.map (fun r => r.take (natMax io.lengths))

/-- `LauraGenModel.nll`.  `codec_lm` abstracts the language model call
`y, _ = self.codec_lm(sequence, x_lengths, text_lengths + 1)` followed by
the reshape to `[B, T, predict_nq, -1]`: an element of `A` is the
`[predict_nq, Edim]` block of logits at one output position.  `criterion_ce`
abstracts `self.criterion_ce(logits.reshape(bb, tt*nq, -1),
target.reshape(bb, tt*nq))` followed by `.sum(-1)`, producing the flat
per-position loss vector of length `bb * tt * nq` (the comment in the
source: `nll: (BxL,)`).  The source then extracts
`y[i, text_len + 1 : text_len + 2 + codec_len]` per example, pads with 0.0
(`padA`), zeroes padded positions through
`masked_fill_(make_pad_mask(y_lengths * predict_nq).view(-1), 0.0)` and
reshapes back to `(batch_size, tt, predict_nq)`; it returns
`(nll, logits, target, codec_lengths + 1)`. -/
def nll {E A : Type} (lmEmbedding : ℕ → E) (kmeansEmb : ℤ → E)
    (padE : E) (padA : A) (predict_nq codebook_size : ℕ)
    (codec_lm : List (List E) → List ℕ → List ℕ → List (List A))
    (criterion_ce : List (List A) → List (List (List ℤ)) → List ℚ)
    (text : List (List E)) (text_lengths : List ℕ)
    (codec : List (List (List ℤ))) (codec_lengths : List ℕ) :
    Option (List (List (List ℚ)) × List (List A)
      × List (List (List ℤ)) × List ℕ) :=
  match nllPrep lmEmbedding kmeansEmb padE predict_nq codebook_size
      text text_lengths codec codec_lengths with
  | none => none
  | some io =>
    match io.targets, io.targetLengths with
    | some target0, some y_lengths =>
      let batch_size := text.length
      let x_lengths := io.lengths
      let sequence := nllSeqOf io
      let target := target0.map (fun r => r.take (natMax y_lengths))
      let y := codec_lm sequence x_lengths (text_lengths.map (· + 1))
      let logits_list := (List.range (min text_lengths.length
          codec_lengths.length)).map (fun i =>
        ((y.getD i []).drop (text_lengths.getD i 0 + 1)).take
          ((text_lengths.getD i 0 + 2 + codec_lengths.getD i 0)
            - (text_lengths.getD i 0 + 1)))
      let logits := pad_list logits_list padA
      let tt := (logits.headD []).length
      let ceOut := criterion_ce logits target
      let maskFlat := (make_pad_mask (y_lengths.map
          (fun l => l * predict_nq))).flatten
      let nllFlat := List.zipWith (fun c m => if m then (0 : ℚ) else c)
        ceOut maskFlat
      let nllOut := (List.range batch_size).map (fun i =>
        (List.range tt).map (fun t =>
          (List.range predict_nq).map (fun q =>
            nllFlat.getD (i * (tt * predict_nq) + t * predict_nq + q) 0)))
      some (nllOut, logits, target, codec_lengths.map (· + 1))
    | _, _ => none

/-- Computation rule for `build_llm_io` when codec and codec_lengths are
both given and every codec group is a singleton (the
`calc_dense_vector` assertion holds). -/
theorem build_llm_io_eq_some {E : Type} (lmEmbedding : ℕ → E)
    (kmeansEmb : ℤ → E) (padE : E) (nq cbs : ℕ) (text : List (List E))
    (tl : List ℕ) (c : List (List (List ℤ))) (cl : List ℕ) (nt : Bool)
    (hall : ∀ row ∈ c, ∀ g ∈ row, g.length = 1) :
    build_llm_io lmEmbedding kmeansEmb padE nq cbs text tl
        (some c) (some cl) nt =
      some ⟨pad_list ((List.range tl.length).map (fun i =>
              [lmEmbedding sos_eos] ++ (text.getD i []).take (tl.getD i 0)
                ++ [lmEmbedding task_id]
                ++ (((c.map (fun row =>
                      row.map (fun g => kmeansEmb (g.headD 0)))).getD i []).take
                    (cl.getD i 0)))) padE,
            List.zipWith (fun a b => a + 2 + b) tl cl,
            if nt then some ((List.range text.length).map (fun i =>
              if i < cl.length then
                (List.range (natMax cl + 1)).map (fun t =>
                  if t < cl.getD i 0 then
                    List.replicate nq (((c.getD i []).getD t []).headD 0)
                  else if t = cl.getD i 0 then
                    List.replicate nq ((cbs : ℤ) + (sos_eos : ℤ))
                  else List.replicate nq 0)
              else List.replicate (natMax cl + 1) (List.replicate nq 0)))
            else none,
            if nt then some (cl.map (· + 1)) else none⟩ := by
  have hallb : (c.all (fun row => row.all (fun g => g.length = 1))) = true := by
    simp only [List.all_eq_true, decide_eq_true_eq]
    intro row hrow g hg
    exact hall row hrow g hg
  cases nt <;> simp only [build_llm_io, calc_dense_vector, hallb,
    Option.isNone_some, Bool.or_self, Bool.and_false, Bool.false_and,
    Bool.false_eq_true, if_false, if_true, ite_true, ite_false,
    Bool.true_and, Bool.and_self]

/- ### Generic list lemmas used throughout -/

theorem rangeMap_getD {α : Type} (f : ℕ → α) (n i : ℕ) (d : α) (hi : i < n) :
    (((List.range n).map f).getD i d) = f i := by
  rw [List.getD_eq_getElem?_getD]
  rw [List.getElem?_eq_getElem (by simpa using hi)]
  simp

theorem mem_le_foldr_max (l : List ℕ) (x : ℕ) (hx : x ∈ l) :
    x ≤ l.foldr Nat.max 0 := by
  induction l with
  | nil => cases hx
  | cons a t ih =>
    rcases List.mem_cons.mp hx with h | h
    · subst h; exact Nat.le_max_left _ _
    · exact le_trans (ih h) (Nat.le_max_right _ _)

theorem pad_list_length {E : Type} (xs : List (List E)) (pad : E) :
    (pad_list xs pad).length = xs.length := by
  simp [pad_list]

theorem pad_list_getD {E : Type} (xs : List (List E)) (pad : E) (i : ℕ)
    (hi : i < xs.length) :
    (pad_list xs pad).getD i [] =
      (xs.getD i []) ++ List.replicate (maxLen xs - (xs.getD i []).length) pad := by
  unfold pad_list
  rw [List.getD_eq_getElem?_getD, List.getElem?_eq_getElem (by simpa using hi)]
  rw [List.getD_eq_getElem?_getD, List.getElem?_eq_getElem hi]
  simp

theorem pad_list_row_length {E : Type} (xs : List (List E)) (pad : E) (i : ℕ)
    (hi : i < xs.length) :
    ((pad_list xs pad).getD i []).length = maxLen xs := by
  rw [pad_list_getD xs pad i hi]
  have hle : (xs.getD i []).length ≤ maxLen xs := by
    apply mem_le_foldr_max
    apply List.mem_map_of_mem
    rw [List.getD_eq_getElem?_getD, List.getElem?_eq_getElem hi]
    exact List.getElem_mem _
  rw [List.length_append, List.length_replicate]
  omega

theorem map_getD {α β : Type} (f : α → β) (l : List α) (i : ℕ) (d : β)
    (da : α) (hi : i < l.length) :
    (l.map f).getD i d = f (l.getD i da) := by
  rw [List.getD_eq_getElem _ d (by simpa using hi), List.getD_eq_getElem _ da hi]
  simp

theorem zipWith_eq_rangeMap {α β γ : Type} (f : α → β → γ) (l1 : List α)
    (l2 : List β) (d1 : α) (d2 : β) (B : ℕ) (h1 : l1.length = B)
    (h2 : l2.length = B) :
    List.zipWith f l1 l2 =
      (List.range B).map (fun i => f (l1.getD i d1) (l2.getD i d2)) := by
  apply List.ext_getElem
  · simp [h1, h2]
  · intro i hi1 hi2
    have hiB : i < B := by simpa using hi2
    rw [List.getElem_zipWith, List.getElem_map, List.getElem_range]
    rw [List.getD_eq_getElem l1 d1 (by omega), List.getD_eq_getElem l2 d2 (by omega)]

theorem maxLen_rangeMap {E : Type} (f : ℕ → List E) (B : ℕ) (g : ℕ → ℕ)
    (hg : ∀ i, i < B → (f i).length = g i) :
    maxLen ((List.range B).map f) = ((List.range B).map g).foldr Nat.max 0 := by
  unfold maxLen
  rw [List.map_map]
  congr 1
  apply List.map_congr_left
  intro a ha
  exact hg a (List.mem_range.mp ha)

/-- C7: `_pad_two` concatenates, for every example `i`, the valid prefix of
`t1` and the valid prefix of `t2`, pads the result with zeros up to the batch
maximum combined length, and returns lengths `t1_lens + t2_lens` pointwise. -/
theorem pad_two_spec {E : Type} (padE : E) (t1 t2 : List (List E))
    (t1_lens t2_lens : List ℕ) (B : ℕ)
    (h1 : t1_lens.length = B) (h2 : t2_lens.length = B)
    (hv1 : ∀ i, i < B → t1_lens.getD i 0 ≤ (t1.getD i []).length)
    (hv2 : ∀ i, i < B → t2_lens.getD i 0 ≤ (t2.getD i []).length) :
    ((_pad_two padE t1 t1_lens t2 t2_lens).2 =
      List.zipWith (fun a b => a + b) t1_lens t2_lens) ∧
    (∀ i, i < B →
      ((_pad_two padE t1 t1_lens t2 t2_lens).1).getD i [] =
        (t1.getD i []).take (t1_lens.getD i 0)
          ++ (t2.getD i []).take (t2_lens.getD i 0)
          ++ List.replicate
              (natMax (List.zipWith (fun a b => a + b) t1_lens t2_lens)
                - (t1_lens.getD i 0 + t2_lens.getD i 0)) padE) := by
  constructor
  · rfl
  · intro i hi
    unfold _pad_two
    simp only
    have hmin : min t1_lens.length t2_lens.length = B := by omega
    rw [hmin]
    have hrowlen : ∀ j, j < B →
        ((t1.getD j []).take (t1_lens.getD j 0)
          ++ (t2.getD j []).take (t2_lens.getD j 0)).length
          = t1_lens.getD j 0 + t2_lens.getD j 0 := by
      intro j hj
      rw [List.length_append, List.length_take, List.length_take]
      have := hv1 j hj
      have := hv2 j hj
      omega
    have hlen : i < ((List.range B).map (fun i =>
        (t1.getD i []).take (t1_lens.getD i 0)
          ++ (t2.getD i []).take (t2_lens.getD i 0))).length := by
      simpa using hi
    rw [pad_list_getD _ padE i hlen]
    rw [rangeMap_getD _ B i [] hi]
    have hmax : maxLen ((List.range B).map (fun i =>
        (t1.getD i []).take (t1_lens.getD i 0)
          ++ (t2.getD i []).take (t2_lens.getD i 0)))
        = natMax (List.zipWith (fun a b => a + b) t1_lens t2_lens) := by
      rw [maxLen_rangeMap _ B (fun j => t1_lens.getD j 0 + t2_lens.getD j 0) hrowlen]
      unfold natMax
      rw [zipWith_eq_rangeMap (fun a b => a + b) t1_lens t2_lens 0 0 B h1 h2]
    rw [hmax, hrowlen i hi, List.append_assoc]

/-- C1: `build_llm_io` assembles, for every batch example `i`, the LM input
row `[sos_eos embedding, text[i, :text_lengths[i]], task_id embedding,
codec embedding[i, :codec_lengths[i]]]` (the codec part omitted when codec
is None), pads all rows with the zero value to the batch maximum, and
returns `llm_lengths = text_lengths + 2 + codec_lengths`
(`text_lengths + 2` when codec is None). -/
theorem build_llm_io_inputs_spec {E : Type} (lmEmbedding : ℕ → E)
    (kmeansEmb : ℤ → E) (padE : E) (nq cbs : ℕ)
    (text : List (List E)) (tl : List ℕ) (B : ℕ)
    (htl : tl.length = B)
    (hvt : ∀ i, i < B → tl.getD i 0 ≤ (text.getD i []).length) :
    (∀ (c : List (List (List ℤ))) (cl : List ℕ) (nt : Bool) (io : LlmIo E),
      c.length = B → cl.length = B →
      (∀ i, i < B → cl.getD i 0 ≤ (c.getD i []).length) →
      (∀ row ∈ c, ∀ g ∈ row, g.length = 1) →
      build_llm_io lmEmbedding kmeansEmb padE nq cbs text tl
          (some c) (some cl) nt = some io →
      io.lengths = List.zipWith (fun a b => a + 2 + b) tl cl ∧
      ∀ i, i < B → io.inputs.getD i [] =
        [lmEmbedding sos_eos] ++ (text.getD i []).take (tl.getD i 0)
          ++ [lmEmbedding task_id]
          ++ ((c.getD i []).take (cl.getD i 0)).map
              (fun g => kmeansEmb (g.headD 0))
          ++ List.replicate
              (natMax (List.zipWith (fun a b => a + 2 + b) tl cl)
                - (tl.getD i 0 + 2 + cl.getD i 0)) padE) ∧
    (∀ io : LlmIo E,
      build_llm_io lmEmbedding kmeansEmb padE nq cbs text tl
          none none false = some io →
      io.lengths = tl.map (· + 2) ∧
      ∀ i, i < B → io.inputs.getD i [] =
        [lmEmbedding sos_eos] ++ (text.getD i []).take (tl.getD i 0)
          ++ [lmEmbedding task_id]
          ++ List.replicate
              (natMax (tl.map (· + 2)) - (tl.getD i 0 + 2)) padE) := by
  constructor
  · intro c cl nt io hc hcl hvc hsingle hio
    rw [build_llm_io_eq_some lmEmbedding kmeansEmb padE nq cbs text tl
      c cl nt hsingle] at hio
    injection hio with hio
    subst hio
    refine ⟨rfl, ?_⟩
    intro i hi
    simp only [htl]
    have hcelen : ∀ j, j < B →
        (((c.map (fun row =>
            row.map (fun g => kmeansEmb (g.headD 0)))).getD j []).take
          (cl.getD j 0)).length = cl.getD j 0 := by
      intro j hj
      rw [map_getD _ c j [] [] (by omega), List.length_take, List.length_map]
      have := hvc j hj
      omega
    have hrowlen : ∀ j, j < B →
        ([lmEmbedding sos_eos] ++ (text.getD j []).take (tl.getD j 0)
          ++ [lmEmbedding task_id]
          ++ (((c.map (fun row =>
                row.map (fun g => kmeansEmb (g.headD 0)))).getD j []).take
              (cl.getD j 0))).length
        = tl.getD j 0 + 2 + cl.getD j 0 := by
      intro j hj
      rw [List.length_append, List.length_append, List.length_append,
        List.length_take, hcelen j hj]
      have := hvt j hj
      simp only [List.length_cons, List.length_nil]
      omega
    have hilen : i < ((List.range B).map (fun j =>
        [lmEmbedding sos_eos] ++ (text.getD j []).take (tl.getD j 0)
          ++ [lmEmbedding task_id]
          ++ (((c.map (fun row =>
                row.map (fun g => kmeansEmb (g.headD 0)))).getD j []).take
              (cl.getD j 0)))).length := by simpa using hi
    rw [pad_list_getD _ padE i hilen, rangeMap_getD _ B i [] hi]
    have hmax : maxLen ((List.range B).map (fun j =>
        [lmEmbedding sos_eos] ++ (text.getD j []).take (tl.getD j 0)
          ++ [lmEmbedding task_id]
          ++ (((c.map (fun row =>
                row.map (fun g => kmeansEmb (g.headD 0)))).getD j []).take
              (cl.getD j 0))))
        = natMax (List.zipWith (fun a b => a + 2 + b) tl cl) := by
      rw [maxLen_rangeMap _ B (fun j => tl.getD j 0 + 2 + cl.getD j 0) hrowlen]
      unfold natMax
      rw [zipWith_eq_rangeMap (fun a b => a + 2 + b) tl cl 0 0 B htl hcl]
    rw [hmax, hrowlen i hi]
    rw [map_getD _ c i [] [] (by omega)]
    rw [List.map_take]
  · intro io hio
    unfold build_llm_io at hio
    simp only [Bool.and_self, Option.isNone_none, Bool.or_self, Bool.and_true,
      Bool.false_and, Bool.and_false, Bool.false_eq_true, if_false,
      Option.some.injEq, reduceIte] at hio
    subst hio
    refine ⟨rfl, ?_⟩
    intro i hi
    simp only [htl]
    have hrowlen : ∀ j, j < B →
        ([lmEmbedding sos_eos] ++ (text.getD j []).take (tl.getD j 0)
          ++ [lmEmbedding task_id]).length = tl.getD j 0 + 2 := by
      intro j hj
      rw [List.length_append, List.length_append, List.length_take]
      have := hvt j hj
      simp only [List.length_cons, List.length_nil]
      omega
    have hilen : i < ((List.range B).map (fun j =>
        [lmEmbedding sos_eos] ++ (text.getD j []).take (tl.getD j 0)
          ++ [lmEmbedding task_id])).length := by simpa using hi
    rw [pad_list_getD _ padE i hilen, rangeMap_getD _ B i [] hi]
    have hmax : maxLen ((List.range B).map (fun j =>
        [lmEmbedding sos_eos] ++ (text.getD j []).take (tl.getD j 0)
          ++ [lmEmbedding task_id]))
        = natMax (tl.map (· + 2)) := by
      rw [maxLen_rangeMap _ B (fun j => tl.getD j 0 + 2) hrowlen]
      unfold natMax
      congr 1
      apply List.ext_getElem
      · simp [htl]
      · intro j hj1 hj2
        simp only [List.getElem_map, List.getElem_range]
        rw [List.getD_eq_getElem tl 0 (by simpa using hj2)]
    rw [hmax, hrowlen i hi]

theorem eq_singleton_headD {α : Type} (g : List α) (d : α)
    (h : g.length = 1) : g = [g.headD d] := by
  cases g with
  | nil => simp at h
  | cons a t =>
    simp only [List.length_cons, Nat.add_eq_right] at h
    rw [List.length_eq_zero] at h
    subst h
    rfl

/-- C2: with `need_targets=True` (which requires codec and codec_lengths to
be non-None: the other calls return the assertion failure `none`),
`build_llm_io` returns targets of time dimension `max(codec_lengths) + 1`
where row `i` starts with `codec[i, :codec_lengths[i]]`, carries the EOS id
`codebook_size + sos_eos` at position `codec_lengths[i]`, and the returned
target lengths are `codec_lengths + 1`. -/
theorem build_llm_io_targets_spec {E : Type} (lmEmbedding : ℕ → E)
    (kmeansEmb : ℤ → E) (padE : E) (nq cbs : ℕ)
    (text : List (List E)) (tl : List ℕ)
    (c : List (List (List ℤ))) (cl : List ℕ) (B : ℕ)
    (htext : text.length = B) (hc : c.length = B) (hcl : cl.length = B)
    (hvc : ∀ i, i < B → cl.getD i 0 ≤ (c.getD i []).length)
    (hsingle : ∀ row ∈ c, ∀ g ∈ row, g.length = 1)
    (hnq : nq = 1) :
    (∀ clo, build_llm_io lmEmbedding kmeansEmb padE nq cbs text tl
        none clo true = none) ∧
    (∀ co, build_llm_io lmEmbedding kmeansEmb padE nq cbs text tl
        co none true = none) ∧
    (∀ (io : LlmIo E) (tg : List (List (List ℤ))) (tlens : List ℕ),
      build_llm_io lmEmbedding kmeansEmb padE nq cbs text tl
          (some c) (some cl) true = some io →
      io.targets = some tg → io.targetLengths = some tlens →
      tlens = cl.map (· + 1) ∧
      tg.length = B ∧
      (∀ i, i < B → (tg.getD i []).length = natMax cl + 1) ∧
      (∀ i, i < B →
        (tg.getD i []).take (cl.getD i 0) = (c.getD i []).take (cl.getD i 0) ∧
        (tg.getD i []).getD (cl.getD i 0) []
          = List.replicate nq ((cbs : ℤ) + (sos_eos : ℤ)))) := by
  refine ⟨fun clo => rfl, fun co => by cases co <;> rfl, ?_⟩
  intro io tg tlens hio htg htlens
  rw [build_llm_io_eq_some lmEmbedding kmeansEmb padE nq cbs text tl
    c cl true hsingle] at hio
  injection hio with hio
  subst hio
  simp only [ite_true, Option.some.injEq] at htg htlens
  subst htg
  subst htlens
  have hclmax : ∀ i, i < B → cl.getD i 0 ≤ natMax cl := by
    intro i hi
    apply mem_le_foldr_max
    rw [List.getD_eq_getElem cl 0 (by omega)]
    exact List.getElem_mem _
  refine ⟨rfl, by simpa using htext, ?_, ?_⟩
  · intro i hi
    rw [htext, rangeMap_getD _ B i [] hi, if_pos (show i < cl.length by omega)]
    simp
  · intro i hi
    rw [htext, rangeMap_getD _ B i [] hi, if_pos (show i < cl.length by omega)]
    constructor
    · apply List.ext_getElem
      · simp only [List.length_take, List.length_map, List.length_range]
        have := hvc i hi
        have := hclmax i hi
        omega
      · intro t ht1 ht2
        have htcl : t < cl.getD i 0 := by
          simp only [List.length_take] at ht1
          omega
        have htc : t < (c.getD i []).length := by
          simp only [List.length_take] at ht2
          omega
        rw [List.getElem_take, List.getElem_take, List.getElem_map,
          List.getElem_range, if_pos htcl]
        have hgmem : (c.getD i [])[t] ∈ c.getD i [] := List.getElem_mem _
        have hcmem : c.getD i [] ∈ c := by
          rw [List.getD_eq_getElem c [] (by omega)]
          exact List.getElem_mem _
        have hlen1 : ((c.getD i [])[t]).length = 1 :=
          hsingle _ hcmem _ hgmem
        rw [hnq]
        rw [List.getD_eq_getElem _ [] (by
          simp only [List.length_take] at ht2
          omega)]
        exact (eq_singleton_headD _ 0 hlen1).symm
    · rw [rangeMap_getD _ (natMax cl + 1) (cl.getD i 0) []
        (by have := hclmax i hi; omega)]
      rw [if_neg (by omega), if_pos rfl]

/-- Witness for C2: a concrete batch; the target rows carry the codec tokens
then the EOS id `codebook_size + sos_eos = 4`, and target lengths are
`codec_lengths + 1`. -/
theorem build_llm_io_targets_spec_witness :
    ((build_llm_io (fun n => (n : ℤ) + 10) (fun z => z * 100) 0 1 4
        [[5], [6, 7]] [1, 2] (some [[[3]], [[2], [1]]]) (some [1, 2])
        true).map (fun io => io.targets)
      = some (some [[[3], [4], [0]], [[2], [1], [4]]])) ∧
    ((build_llm_io (fun n => (n : ℤ) + 10) (fun z => z * 100) 0 1 4
        [[5], [6, 7]] [1, 2] (some [[[3]], [[2], [1]]]) (some [1, 2])
        true).map (fun io => io.targetLengths) = some (some [2, 3])) := by
  have hio : build_llm_io (fun n => (n : ℤ) + 10) (fun z => z * 100) 0 1 4
      [[5], [6, 7]] [1, 2] (some [[[3]], [[2], [1]]]) (some [1, 2]) true
      = some ⟨[[10, 5, 11, 300, 0, 0], [10, 6, 7, 11, 200, 100]], [4, 6],
          some [[[3], [4], [0]], [[2], [1], [4]]], some [2, 3]⟩ := by rfl
  have h2 := (build_llm_io_targets_spec (fun n => (n : ℤ) + 10)
    (fun z => z * 100) 0 1 4 [[5], [6, 7]] [1, 2]
    [[[3]], [[2], [1]]] [1, 2] 2 rfl rfl rfl
    (by intro i hi; interval_cases i <;> decide)
    (by intro row hrow g hg; fin_cases hrow <;> fin_cases hg <;> rfl)
    rfl).2.2 _ [[[3], [4], [0]], [[2], [1], [4]]] [2, 3] hio rfl rfl
  rw [hio]
  exact ⟨rfl, congrArg some (congrArg some h2.1)⟩

/-- Witness for C1: a concrete two-example batch with codec; the padded
rows and the lengths come out as the claim states. -/
theorem build_llm_io_inputs_spec_witness :
    ((build_llm_io (fun n => (n : ℤ) + 10) (fun z => z * 100) 0 1 4
        [[5], [6, 7]] [1, 2] (some [[[3]], [[2], [1]]]) (some [1, 2])
        false).map LlmIo.lengths
      = some (List.zipWith (fun a b => a + 2 + b) [1, 2] [1, 2])) ∧
    ((build_llm_io (fun n => (n : ℤ) + 10) (fun z => z * 100) 0 1 4
        [[5], [6, 7]] [1, 2] (some [[[3]], [[2], [1]]]) (some [1, 2])
        false).map (fun io => io.inputs.getD 0 []) =
      some [10, 5, 11, 300, 0, 0]) := by
  have hio : build_llm_io (fun n => (n : ℤ) + 10) (fun z => z * 100)
      0 1 4 [[5], [6, 7]] [1, 2] (some [[[3]], [[2], [1]]]) (some [1, 2])
      false
      = some ⟨[[10, 5, 11, 300, 0, 0], [10, 6, 7, 11, 200, 100]], [4, 6],
          none, none⟩ := by rfl
  have h2 := (build_llm_io_inputs_spec (fun n => (n : ℤ) + 10)
    (fun z => z * 100) 0 1 4 [[5], [6, 7]] [1, 2] 2 rfl
    (by intro i hi; interval_cases i <;> decide)).1
    [[[3]], [[2], [1]]] [1, 2] false _ rfl rfl
    (by intro i hi; interval_cases i <;> decide)
    (by intro row hrow g hg; fin_cases hrow <;> fin_cases hg <;> rfl) hio
  rw [hio]
  exact ⟨congrArg some h2.1,
    congrArg some ((h2.2 0 (by omega)).trans (by decide))⟩

/-- Witness for C7: the docstring example of `_pad_two`
(lengths [3,2,1] and [4,2,1] give output lengths [7,4,2]). -/
theorem pad_two_spec_witness :
    ((_pad_two (0:ℚ)
        [[1, 2, 3, 0, 0], [-1, -2, 0, 0, 0], [100, 0, 0, 0, 0]] [3, 2, 1]
        [[10, 20, 30, 40, 0], [-10, -20, 0, 0, 0], [1000, 0, 0, 0, 0]]
        [4, 2, 1]).2 = [7, 4, 2]) ∧
    ((_pad_two (0:ℚ)
        [[1, 2, 3, 0, 0], [-1, -2, 0, 0, 0], [100, 0, 0, 0, 0]] [3, 2, 1]
        [[10, 20, 30, 40, 0], [-10, -20, 0, 0, 0], [1000, 0, 0, 0, 0]]
        [4, 2, 1]).1.getD 1 [] = [-1, -2, -10, -20, 0, 0, 0]) := by
  have h := pad_two_spec (0:ℚ)
    [[1, 2, 3, 0, 0], [-1, -2, 0, 0, 0], [100, 0, 0, 0, 0]]
    [[10, 20, 30, 40, 0], [-10, -20, 0, 0, 0], [1000, 0, 0, 0, 0]]
    [3, 2, 1] [4, 2, 1] 3 rfl rfl
    (by intro i hi; interval_cases i <;> decide)
    (by intro i hi; interval_cases i <;> decide)
  refine ⟨h.1.trans (by decide), (h.2 1 (by omega)).trans (by decide)⟩

/- ### decode_codec: loop lemmas -/

theorem decodeLoop_append (eos : ℕ) (sample : List (List ℕ) → ℕ → ℕ)
    (predict_nq : ℕ) :
    ∀ (fuel : ℕ) (toks : List (List ℕ)),
      ∃ suffix, decodeLoop eos sample predict_nq fuel toks = toks ++ suffix ∧
        suffix.length ≤ fuel ∧ ∀ g ∈ suffix, g.length = predict_nq := by
  intro fuel
  induction fuel with
  | zero =>
    intro toks
    exact ⟨[], by simp [decodeLoop]⟩
  | succ n ih =>
    intro toks
    by_cases hbr : toks ≠ [] ∧ eos ∈ toks.getLastD []
    · refine ⟨[], ?_, by simp, by simp⟩
      simp only [decodeLoop]
      rw [if_pos hbr, List.append_nil]
    · obtain ⟨s, hs, hlen, hg⟩ :=
        ih (toks ++ [decodeGroup sample predict_nq toks])
      refine ⟨[decodeGroup sample predict_nq toks] ++ s, ?_, ?_, ?_⟩
      · simp only [decodeLoop, if_neg hbr]
        rw [hs, List.append_assoc]
      · simp only [List.length_append, List.length_cons, List.length_nil]
        omega
      · intro g hg2
        rcases List.mem_append.mp hg2 with h | h
        · rw [List.mem_singleton] at h
          subst h
          simp [decodeGroup]
        · exact hg g h

theorem decodeLoop_noEosBody (eos : ℕ) (sample : List (List ℕ) → ℕ → ℕ)
    (predict_nq : ℕ) :
    ∀ (fuel : ℕ) (toks : List (List ℕ)),
      (∀ g ∈ toks.dropLast, eos ∉ g) →
      ∀ g ∈ (decodeLoop eos sample predict_nq fuel toks).dropLast, eos ∉ g := by
  intro fuel
  induction fuel with
  | zero =>
    intro toks h
    simpa [decodeLoop] using h
  | succ n ih =>
    intro toks h
    by_cases hbr : toks ≠ [] ∧ eos ∈ toks.getLastD []
    · simp only [decodeLoop]
      rw [if_pos hbr]
      exact h
    · simp only [decodeLoop, if_neg hbr]
      apply ih
      rw [show (toks ++ [decodeGroup sample predict_nq toks]).dropLast
        = toks by simp]
      intro g hg
      rcases eq_or_ne toks [] with rfl | hne
      · cases hg
      · have hsplit := List.dropLast_append_getLast hne
        rw [← hsplit] at hg
        rcases List.mem_append.mp hg with h1 | h1
        · exact h g h1
        · rw [List.mem_singleton] at h1
          subst h1
          push_neg at hbr
          have hnot := hbr hne
          have hld : toks.getLastD [] = toks.getLast hne := by
            rw [List.getLastD_eq_getLast?, List.getLast?_eq_getLast toks hne]
            rfl
          rw [hld] at hnot
          exact hnot

theorem decodeLoop_ne_nil (eos : ℕ) (sample : List (List ℕ) → ℕ → ℕ)
    (predict_nq : ℕ) (fuel : ℕ) (toks : List (List ℕ))
    (h : 1 ≤ fuel ∨ toks ≠ []) :
    decodeLoop eos sample predict_nq fuel toks ≠ [] := by
  cases fuel with
  | zero =>
    rcases h with h | h
    · omega
    · simpa [decodeLoop] using h
  | succ n =>
    by_cases hbr : toks ≠ [] ∧ eos ∈ toks.getLastD []
    · simp only [decodeLoop]
      rw [if_pos hbr]
      exact hbr.1
    · obtain ⟨s, hs, _, _⟩ := decodeLoop_append eos sample predict_nq n
        (toks ++ [decodeGroup sample predict_nq toks])
      simp only [decodeLoop, if_neg hbr]
      rw [hs]
      simp

/-- C3 (amended): the `decode_codec` loop performs at most `max_length`
iterations, each appending exactly one group of `predict_nq` token ids;
it stops as soon as the most recently emitted token group contains the EOS
id; and — provided the initial `continual` prompt carries no EOS id — the
returned token tensor never contains the EOS id (a trailing EOS group is
removed before returning).  As literally stated, the last part fails when
`continual` already contains an EOS id in a non-final group; see the
counterexample. -/
theorem decode_codec_spec (eos : ℕ) (sample : List (List ℕ) → ℕ → ℕ)
    (predict_nq : ℕ) :
    (∀ fuel toks, ∃ suffix,
        decodeLoop eos sample predict_nq fuel toks = toks ++ suffix ∧
        suffix.length ≤ fuel ∧ ∀ g ∈ suffix, g.length = predict_nq) ∧
    (∀ fuel toks, toks ≠ [] → eos ∈ toks.getLastD [] →
        decodeLoop eos sample predict_nq fuel toks = toks) ∧
    (∀ max_length auxLen continual res,
        (∀ g ∈ continual.getD [], eos ∉ g) →
        decode_codec eos sample predict_nq max_length (some auxLen) continual
          = some res →
        ∀ g ∈ res, eos ∉ g) := by
  refine ⟨decodeLoop_append eos sample predict_nq, ?_, ?_⟩
  · intro fuel toks h1 h2
    cases fuel with
    | zero => rfl
    | succ n =>
      simp only [decodeLoop]
      rw [if_pos (And.intro h1 h2)]
  · intro ml auxLen cont res hcont hres
    have hbody := decodeLoop_noEosBody eos sample predict_nq ml (cont.getD [])
      (fun g hg => hcont g (List.mem_of_mem_dropLast hg))
    simp only [decode_codec] at hres
    cases hl : (decodeLoop eos sample predict_nq ml (cont.getD [])).getLast? with
    | none =>
      rw [hl] at hres
      cases hres
    | some last =>
      rw [hl] at hres
      simp only [Option.some.injEq] at hres
      subst hres
      intro g hg
      have hg2 := List.mem_of_mem_drop hg
      by_cases heos : eos ∈ last
      · rw [if_pos heos] at hg2
        exact hbody g hg2
      · rw [if_neg heos] at hg2
        have hne : decodeLoop eos sample predict_nq ml (cont.getD []) ≠ [] := by
          intro hnil
          rw [hnil] at hl
          cases hl
        have hlast : (decodeLoop eos sample predict_nq ml
            (cont.getD [])).getLast hne = last := by
          have := List.getLast?_eq_getLast
            (decodeLoop eos sample predict_nq ml (cont.getD [])) hne
          rw [this] at hl
          injection hl
        have hsplit := List.dropLast_append_getLast hne
        rw [← hsplit] at hg2
        rcases List.mem_append.mp hg2 with h1 | h1
        · exact hbody g h1
        · rw [List.mem_singleton] at h1
          subst h1
          rw [hlast]
          exact heos

/-- Counterexample to C3 as literally stated: when the `continual` prompt
already contains an EOS group (id 4 = codebook_size + sos_eos) in a
non-final position, the loop never inspects it, and the returned tensor
contains the EOS id. -/
theorem decode_codec_spec_counterexample :
    decode_codec 4 (fun _ _ => 0) 1 1 (some 0) (some [[4], [2]])
      = some [[4], [2], [0]] ∧
    ∃ g ∈ [[4], [2], [0]], (4 : ℕ) ∈ g := by decide

/-- Witness for C3: a clean decode run from a non-EOS continual prompt
stops at the EOS and the result contains no EOS id. -/
theorem decode_codec_spec_witness :
    (decodeLoop 4 (fun _ _ => 0) 1 5 [[4]] = [[4]]) ∧
    (∀ g ∈ [[1], [2], [0], [0]], (4 : ℕ) ∉ g) := by
  have h := decode_codec_spec 4 (fun _ _ => 0) 1
  exact ⟨h.2.1 5 [[4]] (by decide) (by decide),
    h.2.2 2 0 (some [[1], [2]]) [[1], [2], [0], [0]] (by decide) (by decide)⟩

/-- C9: `decode_codec` with `aux = None` always fails: with
`max_length ≥ 1` the loop leaves a non-empty token list (so the
`out_tokens[-1]` access succeeds) and the final return statement
unconditionally evaluates `aux.size(1)`, which fails on `None`. -/
theorem decode_codec_aux_none (eos : ℕ) (sample : List (List ℕ) → ℕ → ℕ)
    (predict_nq max_length : ℕ) (continual : Option (List (List ℕ)))
    (h : 1 ≤ max_length) :
    decodeLoop eos sample predict_nq max_length (continual.getD []) ≠ [] ∧
    decode_codec eos sample predict_nq max_length none continual = none := by
  refine ⟨decodeLoop_ne_nil eos sample predict_nq max_length
    (continual.getD []) (Or.inl h), ?_⟩
  simp only [decode_codec]
  cases hl : (decodeLoop eos sample predict_nq max_length
      (continual.getD [])).getLast? <;> rfl

/-- Witness for C9 at `max_length = 1`, `continual = None`. -/
theorem decode_codec_aux_none_witness :
    1 ≤ 1 ∧ decode_codec 4 (fun _ _ => 0) 1 1 none none = none :=
  ⟨Nat.le_refl 1,
    (decode_codec_aux_none 4 (fun _ _ => 0) 1 1 none (Nat.le_refl 1)).2⟩

/- ### sampling_ids -/

theorem getD_mem {α : Type} (l : List α) (j : ℕ) (d : α)
    (h : j < l.length) : l.getD j d ∈ l := by
  rw [List.getD_eq_getElem l d h]
  exact List.getElem_mem _

theorem sortedIdxDesc_length (pr : List ℚ) :
    (sortedIdxDesc pr).length = pr.length := by
  unfold sortedIdxDesc
  rw [(List.perm_insertionSort _ _).length_eq, List.length_zip,
    List.length_range, min_self]

theorem cumTake_spec (p : ℚ) :
    ∀ (l : List (ℚ × ℕ)) (c : ℚ), ∃ n,
      cumTake p l c = l.take n ∧ n ≤ l.length ∧
      (∀ m, m < n → c + ((l.take m).map (fun v => v.1)).sum < p) ∧
      (n = l.length ∨ p ≤ c + ((l.take n).map (fun v => v.1)).sum) := by
  intro l
  induction l with
  | nil =>
    intro c
    exact ⟨0, rfl, by simp, by simp, Or.inl rfl⟩
  | cons x xs ih =>
    intro c
    by_cases hc : c < p
    · obtain ⟨n, h1, h2, h3, h4⟩ := ih (c + x.1)
      refine ⟨n + 1, ?_, by simpa using h2, ?_, ?_⟩
      · rw [List.take_succ_cons, ← h1]
        simp only [cumTake, if_pos hc]
      · intro m hm
        cases m with
        | zero => simpa using hc
        | succ m2 =>
          have h5 := h3 m2 (by omega)
          simp only [List.take_succ_cons, List.map_cons, List.sum_cons]
          linarith
      · rcases h4 with h | h
        · left
          simp [h]
        · right
          simp only [List.take_succ_cons, List.map_cons, List.sum_cons]
          linarith
    · refine ⟨0, ?_, by simp, by simp, Or.inr ?_⟩
      · simp [cumTake, hc]
      · simpa using le_of_not_lt hc

/-- C4: `sampling_ids` returns `beam_size` indices for every `bool`, `int`
and `float` sampling argument — multinomial over the full softmax for
`True`; the `beam_size` highest-scoring indices for `False`; for an `int`
`k`, indices drawn only from the `k` highest-softmax entries; for a `float`
`p`, indices drawn only from the shortest descending-probability prefix
whose cumulative softmax probability reaches `p` — and the
`NotImplementedError` is raised if and only if the argument has any other
type.  The first conjunct characterises `sortedIdxDesc` as a descending
stable sort of the (value, index) pairs. -/
theorem sampling_ids_spec (softmaxF : List ℚ → List ℚ)
    (mult : List ℚ → ℕ → List ℕ)
    (hsoft : ∀ v, (softmaxF v).length = v.length)
    (hmult : ∀ pr n, pr ≠ [] → (mult pr n).length = n ∧
      ∀ j ∈ mult pr n, j < pr.length) :
    (∀ v : List ℚ, (sortedIdxDesc v).Perm (v.zip (List.range v.length)) ∧
      List.Pairwise (fun a b : ℚ × ℕ => b.1 ≤ a.1) (sortedIdxDesc v)) ∧
    (∀ w beam, w ≠ [] → ∃ ids,
      sampling_ids softmaxF mult w (SamplingArg.boolArg true) beam
        = .ok ids ∧ ids.length = beam) ∧
    (∀ w beam, beam ≤ List.length w →
      sampling_ids softmaxF mult w (SamplingArg.boolArg false) beam
        = .ok ((topkDesc w beam).map (fun v => v.2)) ∧
      ((topkDesc w beam).map (fun v => v.2)).length = beam) ∧
    (∀ w k beam, 0 < k → k ≤ List.length w → ∃ ids,
      sampling_ids softmaxF mult w (SamplingArg.intArg k) beam = .ok ids ∧
      ids.length = beam ∧
      ∀ i2 ∈ ids, i2 ∈ (topkDesc (softmaxF w) k).map (fun v => v.2)) ∧
    (∀ w p beam, 0 < p → w ≠ [] → ∃ ids n,
      sampling_ids softmaxF mult w (SamplingArg.floatArg p) beam
        = .ok ids ∧
      ids.length = beam ∧
      cumTake p (sortedIdxDesc (softmaxF w)) 0
        = (sortedIdxDesc (softmaxF w)).take n ∧
      (∀ m, m < n →
        ((((sortedIdxDesc (softmaxF w)).take m).map (fun v => v.1)).sum) < p) ∧
      (n = (sortedIdxDesc (softmaxF w)).length ∨
        p ≤ ((((sortedIdxDesc (softmaxF w)).take n).map (fun v => v.1)).sum)) ∧
      ∀ i2 ∈ ids,
        i2 ∈ (cumTake p (sortedIdxDesc (softmaxF w)) 0).map (fun v => v.2)) ∧
    (∀ w s beam,
      sampling_ids softmaxF mult w s beam = .error "NotImplementedError"
        ↔ s = SamplingArg.otherArg) := by
  have hsoftne : ∀ w : List ℚ, w ≠ [] → softmaxF w ≠ [] := by
    intro w hw h0
    apply hw
    have h1 := hsoft w
    rw [h0] at h1
    exact List.length_eq_zero.mp h1.symm
  refine ⟨?_, ?_, ?_, ?_, ?_, ?_⟩
  · intro v
    constructor
    · exact List.perm_insertionSort _ _
    · haveI : IsTotal (ℚ × ℕ) (fun a b => b.1 ≤ a.1) :=
        ⟨fun a b => le_total b.1 a.1⟩
      haveI : IsTrans (ℚ × ℕ) (fun a b => b.1 ≤ a.1) :=
        ⟨fun a b c h1 h2 => le_trans h2 h1⟩
      exact List.sorted_insertionSort _ _
  · intro w beam hw
    refine ⟨mult (softmaxF w) beam, ?_, (hmult _ beam (hsoftne w hw)).1⟩
    simp only [sampling_ids]
    rw [if_neg (hsoftne w hw)]
  · intro w beam hbeam
    constructor
    · simp only [sampling_ids]
      rw [if_pos hbeam]
    · rw [List.length_map]
      unfold topkDesc
      rw [List.length_take, sortedIdxDesc_length]
      omega
  · intro w k beam hk hkw
    have hklen : k ≤ (softmaxF w).length := by
      rw [hsoft]
      exact hkw
    have htoplen : ((topkDesc (softmaxF w) k).map (fun v => v.1)).length
        = k := by
      rw [List.length_map]
      unfold topkDesc
      rw [List.length_take, sortedIdxDesc_length]
      omega
    have htopne : (topkDesc (softmaxF w) k).map (fun v => v.1) ≠ [] := by
      intro h0
      rw [h0] at htoplen
      simp only [List.length_nil] at htoplen
      omega
    obtain ⟨hlen, hmem⟩ := hmult _ beam htopne
    refine ⟨(mult ((topkDesc (softmaxF w) k).map (fun v => v.1)) beam).map
      (fun j => ((topkDesc (softmaxF w) k).map (fun v => v.2)).getD j 0),
      ?_, ?_, ?_⟩
    · simp only [sampling_ids]
      rw [if_pos (And.intro hk hklen)]
    · rw [List.length_map]
      exact hlen
    · intro i2 hi2
      rw [List.mem_map] at hi2
      obtain ⟨j, hj, rfl⟩ := hi2
      have hjlt := hmem j hj
      rw [List.length_map] at hjlt
      apply getD_mem
      rw [List.length_map]
      exact hjlt
  · intro w p beam hp hw
    have hslen : (sortedIdxDesc (softmaxF w)).length = w.length := by
      rw [sortedIdxDesc_length, hsoft]
    have hchne : cumTake p (sortedIdxDesc (softmaxF w)) 0 ≠ [] := by
      cases hs : sortedIdxDesc (softmaxF w) with
      | nil =>
        exfalso
        apply hw
        rw [hs] at hslen
        exact List.length_eq_zero.mp hslen.symm
      | cons x xs =>
        simp only [cumTake, if_pos hp]
        exact List.cons_ne_nil _ _
    have hmapne : (cumTake p (sortedIdxDesc (softmaxF w)) 0).map
        (fun v => v.1) ≠ [] := by
      simpa using hchne
    obtain ⟨hlen, hmem⟩ := hmult _ beam hmapne
    obtain ⟨n, hcum, hnle, hlt, hge⟩ :=
      cumTake_spec p (sortedIdxDesc (softmaxF w)) 0
    refine ⟨(mult ((cumTake p (sortedIdxDesc (softmaxF w)) 0).map
        (fun v => v.1)) beam).map
      (fun j => ((cumTake p (sortedIdxDesc (softmaxF w)) 0).map
        (fun v => v.2)).getD j 0),
      n, ?_, ?_, hcum, ?_, ?_, ?_⟩
    · simp only [sampling_ids]
      rw [if_neg hchne]
    · rw [List.length_map]
      exact hlen
    · intro m hm
      have := hlt m hm
      linarith
    · rcases hge with h | h
      · exact Or.inl h
      · right
        linarith
    · intro i2 hi2
      rw [List.mem_map] at hi2
      obtain ⟨j, hj, rfl⟩ := hi2
      have hjlt := hmem j hj
      rw [List.length_map] at hjlt
      apply getD_mem
      rw [List.length_map]
      exact hjlt
  · intro w s beam
    constructor
    · intro h
      cases s with
      | boolArg b =>
        cases b
        · exfalso
          simp only [sampling_ids] at h
          by_cases hb : beam ≤ w.length
          · rw [if_pos hb] at h
            cases h
          · rw [if_neg hb] at h
            injection h with h
            exact absurd h (by decide)
        · exfalso
          simp only [sampling_ids] at h
          by_cases hb : softmaxF w = []
          · rw [if_pos hb] at h
            injection h with h
            exact absurd h (by decide)
          · rw [if_neg hb] at h
            cases h
      | intArg k =>
        exfalso
        simp only [sampling_ids] at h
        by_cases hb : 0 < k ∧ k ≤ (softmaxF w).length
        · rw [if_pos hb] at h
          cases h
        · rw [if_neg hb] at h
          injection h with h
          exact absurd h (by decide)
      | floatArg p =>
        exfalso
        simp only [sampling_ids] at h
        by_cases hb : cumTake p (sortedIdxDesc (softmaxF w)) 0 = []
        · rw [if_pos hb] at h
          injection h with h
          exact absurd h (by decide)
        · rw [if_neg hb] at h
          cases h
      | otherArg => rfl
    · intro h
      subst h
      rfl

/-- Witness for C4: identity softmax, a multinomial oracle that always
draws index 0, scores [1, 2, 3]: the int branch with k = 2 draws only from
the top-2 indices and the other-type branch raises NotImplementedError. -/
theorem sampling_ids_spec_witness :
    (sampling_ids (fun v => v) (fun _ n => List.replicate n 0)
        [1, 2, 3] (SamplingArg.intArg 2) 3 = .ok [2, 2, 2]) ∧
    (∀ i2 ∈ [2, 2, 2], i2 ∈ (topkDesc [1, 2, 3] 2).map (fun v => v.2)) ∧
    (sampling_ids (fun v => v) (fun _ n => List.replicate n 0)
        [1, 2, 3] SamplingArg.otherArg 3 = .error "NotImplementedError") := by
  have h := sampling_ids_spec (fun v => v) (fun _ n => List.replicate n 0)
    (fun v => rfl)
    (fun pr n hpr => ⟨List.length_replicate n 0, fun j hj => by
      rw [List.eq_of_mem_replicate hj]
      exact List.length_pos.mpr hpr⟩)
  obtain ⟨ids, hok, hlen, hmem⟩ :=
    h.2.2.2.1 [1, 2, 3] 2 3 (by decide) (by decide)
  have hval : sampling_ids (fun v => v) (fun _ n => List.replicate n 0)
      [1, 2, 3] (SamplingArg.intArg 2) 3 = .ok [2, 2, 2] := by
    rfl
  have hids : ids = [2, 2, 2] := by
    rw [hok] at hval
    injection hval
  subst hids
  exact ⟨hok, hmem, (h.2.2.2.2.2 [1, 2, 3] SamplingArg.otherArg 3).mpr rfl⟩

/- ### positionalencoding1d and CrossAttentionDecoderBlock -/

/-- C8: `positionalencoding1d` raises ValueError if and only if `d_model`
is odd; for even `d_model` it returns a `length × d_model` matrix with
entry `[pos, 2i] = sin(pos * exp(-2i * ln(10000) / d_model))` and entry
`[pos, 2i+1] = cos(pos * exp(-2i * ln(10000) / d_model))`. -/
theorem positionalencoding1d_spec (sinF cosF expF logF : ℚ → ℚ)
    (d_model length : ℕ) :
    (positionalencoding1d sinF cosF expF logF d_model length
        = .error "ValueError" ↔ d_model % 2 = 1) ∧
    (d_model % 2 = 0 → ∃ pe,
      positionalencoding1d sinF cosF expF logF d_model length = .ok pe ∧
      pe.length = length ∧
      (∀ row ∈ pe, row.length = d_model) ∧
      (∀ pos i2, pos < length → 2 * i2 < d_model →
        (pe.getD pos []).getD (2 * i2) 0
          = sinF ((pos : ℚ)
            * expF (-(2 * i2 : ℚ) * logF 10000 / (d_model : ℚ))) ∧
        (pe.getD pos []).getD (2 * i2 + 1) 0
          = cosF ((pos : ℚ)
            * expF (-(2 * i2 : ℚ) * logF 10000 / (d_model : ℚ))))) := by
  constructor
  · constructor
    · intro h
      by_cases hodd : d_model % 2 ≠ 0
      · omega
      · exfalso
        simp only [positionalencoding1d, if_neg hodd] at h
        cases h
    · intro h
      simp only [positionalencoding1d]
      rw [if_pos (by omega)]
  · intro heven
    refine ⟨(List.range length).map (fun pos : ℕ =>
      (List.range d_model).map (fun c : ℕ =>
        let dt := expF (((2 * (c / 2) : ℕ) : ℚ)
          * (-(logF 10000 / (d_model : ℚ))))
        if c % 2 = 0 then sinF ((pos : ℚ) * dt) else cosF ((pos : ℚ) * dt))),
      ?_, by simp, ?_, ?_⟩
    · simp only [positionalencoding1d]
      rw [if_neg (by omega)]
    · intro row hrow
      rw [List.mem_map] at hrow
      obtain ⟨pos, hpos, rfl⟩ := hrow
      simp
    · intro pos i2 hpos hi2
      have harg : (((2 * ((2 * i2) / 2) : ℕ) : ℚ)
          * (-(logF 10000 / (d_model : ℚ))))
          = -(2 * i2 : ℚ) * logF 10000 / (d_model : ℚ) := by
        rw [Nat.mul_div_cancel_left i2 (by omega)]
        push_cast
        ring
      have hargodd : (((2 * ((2 * i2 + 1) / 2) : ℕ) : ℚ)
          * (-(logF 10000 / (d_model : ℚ))))
          = -(2 * i2 : ℚ) * logF 10000 / (d_model : ℚ) := by
        have hdiv : (2 * i2 + 1) / 2 = i2 := by omega
        rw [hdiv]
        push_cast
        ring
      constructor
      · have hm : (2 * i2) % 2 = 0 := by omega
        rw [rangeMap_getD _ length pos [] hpos,
          rangeMap_getD _ d_model (2 * i2) 0 hi2]
        simp only [hm, harg]
        simp
      · have hm : (2 * i2 + 1) % 2 = 1 := by omega
        rw [rangeMap_getD _ length pos [] hpos,
          rangeMap_getD _ d_model (2 * i2 + 1) 0 (by omega)]
        simp only [hm, hargodd]
        simp

/-- Witness for C8: odd dimension 3 raises ValueError; with identity
kernels, even dimension 4 and length 2 the (1, 2) entry is
`sin(1 * exp(-2 * log 10000 / 4))`. -/
theorem positionalencoding1d_spec_witness :
    (positionalencoding1d (fun x => x) (fun x => x + 1000) (fun x => x)
      (fun x => x) 3 5 = .error "ValueError") ∧
    ((((positionalencoding1d (fun x => x) (fun x => x + 1000) (fun x => x)
      (fun x => x) 4 2).toOption.getD []).getD 1 []).getD 2 0
      = (-5000 : ℚ)) := by
  have h := positionalencoding1d_spec (fun x => x) (fun x => x + 1000)
    (fun x => x) (fun x => x) 4 2
  obtain ⟨pe, hok, hlen, hrow, helem⟩ := h.2 rfl
  have h1 := (positionalencoding1d_spec (fun x => x) (fun x => x + 1000)
    (fun x => x) (fun x => x) 3 5).1.mpr rfl
  refine ⟨h1, ?_⟩
  rw [hok]
  show (pe.getD 1 []).getD 2 0 = (-5000 : ℚ)
  exact (helem 1 1 (by omega) (by omega)).1.trans (by norm_num)

/-- C10: for `num_layers ≥ 1`, `CrossAttentionDecoderBlock` builds only
`num_layers - 1` `SelmTransformerDecoderLayer` modules per stack (the same
constructor serves the register stack with `num_layers_regi`); with
`num_layers = 1` the stack is an empty `Sequential` and acts as the
identity, exactly like `num_layers = 0` (whose stack is a single
`nn.Identity()`); the single cross-attention layer is always applied. -/
theorem crossAttentionDecoderBlock_spec :
    (∀ n, 1 ≤ n →
      (crossBlockLayers n).length = n - 1 ∧
      ∀ m ∈ crossBlockLayers n, ∃ j, m = SelmModule.decoderLayer j) ∧
    crossBlockLayers 1 = [] ∧
    (∀ (α : Type) (interp : SelmModule → α → α),
      (∀ a, interp SelmModule.identity a = a) →
      ∀ x : α, runSequential interp (crossBlockLayers 1) x = x ∧
        runSequential interp (crossBlockLayers 0) x = x ∧
        ∀ (cross : α → α → α) (cf : Bool) (regi : α),
          crossBlockForward interp cross cf 1 1 x regi
            = (cross x regi, regi)) := by
  refine ⟨?_, rfl, ?_⟩
  · intro n hn
    unfold crossBlockLayers
    rw [if_neg (by omega)]
    refine ⟨by simp, ?_⟩
    intro m hm
    rw [List.mem_map] at hm
    obtain ⟨j, hj, rfl⟩ := hm
    exact ⟨j, rfl⟩
  · intro α interp hid x
    refine ⟨rfl, ?_, ?_⟩
    · show runSequential interp [SelmModule.identity] x = x
      simp [runSequential, hid]
    · intro cross cf regi
      cases cf <;> simp [crossBlockForward, runSequential, crossBlockLayers]

/-- Witness for C10: three layers declared builds a stack of two; the
`num_layers = 0` stack acts as the identity on a concrete input. -/
theorem crossAttentionDecoderBlock_spec_witness :
    ((crossBlockLayers 3).length = 2) ∧
    (runSequential (fun m a => match m with
      | SelmModule.identity => a
      | SelmModule.decoderLayer _ => a + 1) (crossBlockLayers 0) 7 = 7) := by
  have h := crossAttentionDecoderBlock_spec
  exact ⟨(h.1 3 (by omega)).1,
    (h.2.2 ℕ _ (fun a => rfl) 7).2.1⟩

/- ### WavLMKmeansConformer.forward -/

/-- C6: with a numeric `mask_ratio r`, `WavLMKmeansConformer.forward`
replaces exactly `int(T * r)` time positions — the same randomly drawn
positions for every batch row — with the learned mask embedding before
k-means quantization; with `mask_ratio` `None` or `0.0` the embedding is
quantized unchanged; the pipeline order is embedding → k-means tokens →
k-means embedding lookup → Conformer. -/
theorem wavlmForward_spec {E : Type} (kmeans : E → ℕ) (kmeansEmb : ℕ → E)
    (conformer : List (List E) → List (List E)) (maskEmb : E)
    (mseLoss ssimLoss : List (List E) → List (List E) → ℚ)
    (perm : List ℕ) (emb : List (List E)) (T : ℕ)
    (hrows : ∀ row ∈ emb, row.length = T) (hne : emb ≠ [])
    (hperm : perm.Nodup) (hpermlen : perm.length = T)
    (hpermmem : ∀ t ∈ perm, t < T) :
    (∀ ro : Option ℚ, ro = none ∨ ro = some 0 →
      (wavlmForward kmeans kmeansEmb conformer maskEmb mseLoss ssimLoss
          perm emb ro).1
        = conformer (emb.map (fun row =>
            row.map (fun e => kmeansEmb (kmeans e)))) ∧
      (wavlmForward kmeans kmeansEmb conformer maskEmb mseLoss ssimLoss
          perm emb ro).2.1 = emb) ∧
    (∀ r : ℚ, r ≠ 0 → 0 ≤ r → r ≤ 1 →
      (perm.take ((pyInt ((T : ℚ) * r)).toNat)).length
          = (pyInt ((T : ℚ) * r)).toNat ∧
      (perm.take ((pyInt ((T : ℚ) * r)).toNat)).Nodup ∧
      (∀ t ∈ perm.take ((pyInt ((T : ℚ) * r)).toNat), t < T) ∧
      (wavlmForward kmeans kmeansEmb conformer maskEmb mseLoss ssimLoss
          perm emb (some r)).2.1.length = emb.length ∧
      (∀ i, i < emb.length →
        ((wavlmForward kmeans kmeansEmb conformer maskEmb mseLoss ssimLoss
            perm emb (some r)).2.1.getD i []).length = T) ∧
      (∀ i t, i < emb.length → t < T →
        ((wavlmForward kmeans kmeansEmb conformer maskEmb mseLoss ssimLoss
            perm emb (some r)).2.1.getD i []).getD t maskEmb
          = if t ∈ perm.take ((pyInt ((T : ℚ) * r)).toNat) then maskEmb
            else (emb.getD i []).getD t maskEmb) ∧
      (wavlmForward kmeans kmeansEmb conformer maskEmb mseLoss ssimLoss
          perm emb (some r)).1
        = conformer ((wavlmForward kmeans kmeansEmb conformer maskEmb
            mseLoss ssimLoss perm emb (some r)).2.1.map (fun row =>
              row.map (fun e => kmeansEmb (kmeans e))))) := by
  have hTint : (emb.headD []).length = T := by
    cases emb with
    | nil => exact absurd rfl hne
    | cons h t => exact hrows h (List.mem_cons_self h t)
  have hpipe : ∀ ro, (wavlmForward kmeans kmeansEmb conformer maskEmb
      mseLoss ssimLoss perm emb ro).1
      = conformer (((wavlmForward kmeans kmeansEmb conformer maskEmb
          mseLoss ssimLoss perm emb ro).2.1.map (fun row =>
            row.map kmeans)).map (fun row => row.map kmeansEmb)) :=
    fun ro => rfl
  constructor
  · intro ro hro
    have hemb2 : (wavlmForward kmeans kmeansEmb conformer maskEmb mseLoss
        ssimLoss perm emb ro).2.1 = emb := by
      rcases hro with rfl | rfl
      · rfl
      · simp [wavlmForward]
    refine ⟨?_, hemb2⟩
    rw [hpipe ro, hemb2]
    apply congrArg conformer
    simp [List.map_map, Function.comp]
  · intro r hr0 hrnn hr1
    have hfloor : pyInt ((T : ℚ) * r) = ⌊(T : ℚ) * r⌋ :=
      Rat.floor_def.symm
    have hNle : (pyInt ((T : ℚ) * r)).toNat ≤ T := by
      have hle : (T : ℚ) * r ≤ (T : ℚ) := by
        calc (T : ℚ) * r ≤ (T : ℚ) * 1 :=
              mul_le_mul_of_nonneg_left hr1 (by positivity)
        _ = (T : ℚ) := mul_one _
      have h2 : ⌊(T : ℚ) * r⌋ ≤ ⌊((T : ℕ) : ℚ)⌋ := Int.floor_le_floor hle
      rw [Int.floor_natCast] at h2
      rw [hfloor]
      omega
    have hemb2 : (wavlmForward kmeans kmeansEmb conformer maskEmb mseLoss
        ssimLoss perm emb (some r)).2.1
        = emb.map (fun row => (List.range row.length).map (fun t =>
            if t ∈ perm.take ((pyInt ((T : ℚ) * r)).toNat) then maskEmb
            else row.getD t maskEmb)) := by
      simp only [wavlmForward, hTint]
      rw [if_neg hr0]
    refine ⟨by rw [List.length_take]; omega,
      (List.take_sublist _ _).nodup hperm,
      fun t ht => hpermmem t (List.take_subset _ _ ht), ?_, ?_, ?_, ?_⟩
    · rw [hemb2, List.length_map]
    · intro i hi
      rw [hemb2, map_getD _ emb i [] [] hi]
      rw [List.length_map, List.length_range]
      apply hrows
      rw [List.getD_eq_getElem emb [] hi]
      exact List.getElem_mem _
    · intro i t hi ht
      have hrowi : (emb.getD i []).length = T := by
        apply hrows
        rw [List.getD_eq_getElem emb [] hi]
        exact List.getElem_mem _
      rw [hemb2, map_getD _ emb i [] [] hi]
      rw [rangeMap_getD _ (emb.getD i []).length t maskEmb (by omega)]
    · rw [hpipe (some r)]
      apply congrArg conformer
      simp [List.map_map, Function.comp]

/-- Witness for C6: batch [[5, 6]] with T = 2, permutation [1, 0]:
`mask_ratio = None` leaves the pipeline untouched, `mask_ratio = 1`
masks `int(2 * 1) = 2` positions, in particular position 1. -/
theorem wavlmForward_spec_witness :
    ((wavlmForward (fun e : ℤ => e.toNat) (fun n => (n : ℤ) * 10)
        (fun x => x) (-7) (fun _ _ => 0) (fun _ _ => 0)
        [1, 0] [[5, 6]] none).1 = [[50, 60]]) ∧
    (((wavlmForward (fun e : ℤ => e.toNat) (fun n => (n : ℤ) * 10)
        (fun x => x) (-7) (fun _ _ => 0) (fun _ _ => 0)
        [1, 0] [[5, 6]] (some 1)).2.1.getD 0 []).getD 1 (-7) = -7) := by
  have h := wavlmForward_spec (fun e : ℤ => e.toNat) (fun n => (n : ℤ) * 10)
    (fun x => x) (-7) (fun _ _ => 0) (fun _ _ => 0) [1, 0] [[5, 6]] 2
    (by intro row hrow; fin_cases hrow <;> rfl)
    (by decide) (by decide) (by decide) (by decide)
  constructor
  · exact ((h.1 none (Or.inl rfl)).1).trans (by decide)
  · have h2 := h.2 1 (by norm_num) (by norm_num) (by norm_num)
    have hN : (pyInt ((2 : ℚ) * 1)).toNat = 2 := by
      norm_num [pyInt]
      rfl
    have hmem : (1 : ℕ) ∈ [1, 0].take ((pyInt (((2 : ℕ) : ℚ) * 1)).toNat) := by
      have h3 : (pyInt (((2 : ℕ) : ℚ) * 1)).toNat = 2 := by
        norm_num [pyInt]
        rfl
      rw [h3]
      decide
    have hentry := h2.2.2.2.2.2.1 0 1 (by decide) (by decide)
    rw [hentry, if_pos hmem]

/- ### nll: flattening and max lemmas -/

theorem headD_eq_getD {α : Type} (l : List α) (d : α) :
    l.headD d = l.getD 0 d := by
  cases l <;> rfl

theorem natMax_eq_right {a b : ℕ} (h : a ≤ b) : Nat.max a b = b :=
  Nat.max_eq_right h

theorem natMax_eq_left {a b : ℕ} (h : b ≤ a) : Nat.max a b = a :=
  Nat.max_eq_left h

theorem natMax_succ_succ (x y : ℕ) :
    Nat.max (x + 1) (y + 1) = Nat.max x y + 1 :=
  Nat.succ_max_succ x y

theorem natMax_map_add_one (l : List ℕ) (h : l ≠ []) :
    natMax (l.map (fun x => x + 1)) = natMax l + 1 := by
  induction l with
  | nil => exact absurd rfl h
  | cons a t ih =>
    cases t with
    | nil => simp [natMax]
    | cons b t2 =>
      have h2 := ih (List.cons_ne_nil b t2)
      simp only [natMax, List.map_cons, List.foldr_cons] at h2 ⊢
      rw [h2, natMax_succ_succ]

theorem natMax_map_mul (l : List ℕ) (c : ℕ) :
    natMax (l.map (fun x => x * c)) = natMax l * c := by
  induction l with
  | nil => simp [natMax]
  | cons a t ih =>
    simp only [natMax, List.map_cons, List.foldr_cons] at ih ⊢
    rw [ih]
    rcases Nat.le_total a (t.foldr Nat.max 0) with h | h
    · rw [natMax_eq_right (Nat.mul_le_mul_right c h), natMax_eq_right h]
    · rw [natMax_eq_left (Nat.mul_le_mul_right c h), natMax_eq_left h]

theorem flatten_length_uniform {β : Type} (rows : List (List β)) (L : ℕ)
    (h : ∀ r ∈ rows, r.length = L) :
    rows.flatten.length = rows.length * L := by
  induction rows with
  | nil => simp
  | cons a t ih =>
    rw [List.flatten_cons, List.length_append,
      ih (fun r hr => h r (List.mem_cons_of_mem a hr)),
      h a (List.mem_cons_self a t), List.length_cons, Nat.succ_mul]
    omega

theorem flatten_getD_uniform {β : Type} (rows : List (List β)) (L : ℕ)
    (h : ∀ r ∈ rows, r.length = L) (i r : ℕ) (hi : i < rows.length)
    (hr : r < L) (d : β) :
    rows.flatten.getD (i * L + r) d = (rows.getD i []).getD r d := by
  induction rows generalizing i with
  | nil => simp at hi
  | cons a t ih =>
    cases i with
    | zero =>
      rw [List.flatten_cons]
      have ha : a.length = L := h a (List.mem_cons_self a t)
      rw [Nat.zero_mul, Nat.zero_add]
      rw [List.getD_append a t.flatten d r (by omega)]
      rfl
    | succ i2 =>
      rw [List.flatten_cons]
      have ha : a.length = L := h a (List.mem_cons_self a t)
      have hidx : (i2 + 1) * L + r = a.length + (i2 * L + r) := by
        rw [ha, Nat.succ_mul]
        omega
      rw [hidx, List.getD_append_right a t.flatten d _ (by omega)]
      rw [Nat.add_sub_cancel_left]
      exact ih (fun r2 hr2 => h r2 (List.mem_cons_of_mem a hr2)) i2
        (by simpa using hi)

theorem zipWith_getD {α β γ : Type} (f : α → β → γ) (a : List α)
    (b : List β) (n : ℕ) (d : γ) (da : α) (db : β) (hn : n < a.length)
    (hn2 : n < b.length) :
    (List.zipWith f a b).getD n d = f (a.getD n da) (b.getD n db) := by
  rw [List.getD_eq_getElem _ d (by rw [List.length_zipWith]; omega),
    List.getD_eq_getElem _ da hn, List.getD_eq_getElem _ db hn2,
    List.getElem_zipWith]

theorem sub_idx_lt (t q tt nq : ℕ) (ht : t < tt) (hq : q < nq) :
    t * nq + q < tt * nq := by
  calc t * nq + q < t * nq + nq := by omega
  _ = (t + 1) * nq := by ring
  _ ≤ tt * nq := Nat.mul_le_mul_right nq (by omega)

theorem idx_lt_mul (i t q B tt nq : ℕ) (hi : i < B) (ht : t < tt)
    (hq : q < nq) :
    i * (tt * nq) + t * nq + q < B * (tt * nq) := by
  have h1 : t * nq + q < tt * nq := by
    calc t * nq + q < t * nq + nq := by omega
    _ = (t + 1) * nq := by ring
    _ ≤ tt * nq := Nat.mul_le_mul_right nq (by omega)
  calc i * (tt * nq) + t * nq + q < i * (tt * nq) + tt * nq := by omega
  _ = (i + 1) * (tt * nq) := by ring
  _ ≤ B * (tt * nq) := Nat.mul_le_mul_right _ (by omega)

/-- C5: in `nll`, the logits kept for the loss are exactly the language
model output positions `text_lengths[i] + 1` through
`text_lengths[i] + 1 + codec_lengths[i]` (a span of
`codec_lengths[i] + 1` positions), and the returned per-position nll values
are exactly 0 at every position at or past `codec_lengths[i] + 1` (the
padded positions, zeroed by the pad-mask `masked_fill`). -/
theorem nll_spec {E A : Type} (lmEmbedding : ℕ → E) (kmeansEmb : ℤ → E)
    (padE : E) (padA : A) (predict_nq codebook_size : ℕ)
    (codec_lm : List (List E) → List ℕ → List ℕ → List (List A))
    (criterion_ce : List (List A) → List (List (List ℤ)) → List ℚ)
    (text : List (List E)) (tl : List ℕ)
    (codec : List (List (List ℤ))) (cl : List ℕ) (B : ℕ)
    (hB : 0 < B) (htext : text.length = B) (htl : tl.length = B)
    (hcodec : codec.length = B) (hcl : cl.length = B)
    (hvt : ∀ i, i < B → tl.getD i 0 ≤ (text.getD i []).length)
    (hvc : ∀ i, i < B → cl.getD i 0 ≤ (codec.getD i []).length)
    (hsingle : ∀ row ∈ codec, ∀ g ∈ row, g.length = 1)
    (hlm : ∀ s xl tl2, (codec_lm s xl tl2).length = s.length ∧
      ∀ i, ((codec_lm s xl tl2).getD i []).length = (s.getD i []).length)
    (hce : ∀ lg tg, (criterion_ce lg tg).length
      = lg.length * ((lg.headD []).length * predict_nq)) :
    ∀ (io : LlmIo E) (nllOut : List (List (List ℚ)))
      (logits : List (List A)) (target : List (List (List ℤ)))
      (tlens : List ℕ),
      nllPrep lmEmbedding kmeansEmb padE predict_nq codebook_size
        text tl codec cl = some io →
      nll lmEmbedding kmeansEmb padE padA predict_nq codebook_size
        codec_lm criterion_ce text tl codec cl
        = some (nllOut, logits, target, tlens) →
      tlens = cl.map (· + 1) ∧
      (∀ i, i < B →
        logits.getD i []
          = (((codec_lm (nllSeqOf io) io.lengths (tl.map (· + 1))).getD i
              []).drop (tl.getD i 0 + 1)).take (cl.getD i 0 + 1)
            ++ List.replicate (natMax cl - cl.getD i 0) padA ∧
        ((((codec_lm (nllSeqOf io) io.lengths (tl.map (· + 1))).getD i
            []).drop (tl.getD i 0 + 1)).take (cl.getD i 0 + 1)).length
          = cl.getD i 0 + 1) ∧
      (∀ i t q, i < B → cl.getD i 0 + 1 ≤ t → t < natMax cl + 1 →
        q < predict_nq → ((nllOut.getD i []).getD t []).getD q 1 = 0) := by
  intro io nllOut logits target tlens hio hres
  have hclne : cl ≠ [] := by
    intro h
    rw [h] at hcl
    simp at hcl
    omega
  have hsingle2 : ∀ row ∈ codec.map (fun r => r.take (natMax cl)),
      ∀ g ∈ row, g.length = 1 := by
    intro row hrow g hg
    rw [List.mem_map] at hrow
    obtain ⟨r0, hr0, rfl⟩ := hrow
    exact hsingle r0 hr0 g (List.take_subset _ _ hg)
  have hbuild := build_llm_io_eq_some lmEmbedding kmeansEmb padE predict_nq
    codebook_size (text.map (fun r => r.take (natMax tl))) tl
    (codec.map (fun r => r.take (natMax cl))) cl true hsingle2
  have hio0 := hio
  unfold nllPrep at hio0
  rw [hbuild] at hio0
  injection hio0 with hio2
  -- characterising equations for io, keeping io abstract
  have hlen2 : io.lengths = List.zipWith (fun a b => a + 2 + b) tl cl := by
    rw [← hio2]
  have htgl : io.targetLengths = some (cl.map (· + 1)) := by
    rw [← hio2]
    rfl
  have htgOpt : ∃ tg0, io.targets = some tg0 := ⟨_, by rw [← hio2]; rfl⟩
  obtain ⟨tg0, htgOpt⟩ := htgOpt
  have hIL : ∃ il : List (List E), io.inputs = pad_list il padE ∧
      il = (List.range tl.length).map (fun i =>
        [lmEmbedding sos_eos]
          ++ ((text.map (fun r => r.take (natMax tl))).getD i []).take
              (tl.getD i 0)
          ++ [lmEmbedding task_id]
          ++ (((codec.map (fun r => r.take (natMax cl))).map (fun row =>
                row.map (fun g => kmeansEmb (g.headD 0)))).getD i []).take
              (cl.getD i 0)) :=
    ⟨_, by rw [← hio2], rfl⟩
  obtain ⟨il, hioinp, hil⟩ := hIL
  have hilB : il.length = B := by
    rw [hil]
    simp [htl]
  have hilrow : ∀ i, i < B → (il.getD i []).length
      = tl.getD i 0 + 2 + cl.getD i 0 := by
    intro i hi
    rw [hil, htl, rangeMap_getD _ B i [] hi]
    rw [List.length_append, List.length_append, List.length_append,
      List.length_take, List.length_take]
    have h1 : ((text.map (fun r => r.take (natMax tl))).getD i []).length
        = min (natMax tl) ((text.getD i []).length) := by
      rw [map_getD _ text i [] [] (by omega), List.length_take]
    have h2 : (((codec.map (fun r => r.take (natMax cl))).map (fun row =>
        row.map (fun g => kmeansEmb (g.headD 0)))).getD i []).length
        = min (natMax cl) ((codec.getD i []).length) := by
      rw [map_getD _ _ i [] [] (by simp; omega), List.length_map,
        map_getD _ codec i [] [] (by omega), List.length_take]
    have h3 : tl.getD i 0 ≤ natMax tl := by
      apply mem_le_foldr_max
      rw [List.getD_eq_getElem tl 0 (by omega)]
      exact List.getElem_mem _
    have h4 : cl.getD i 0 ≤ natMax cl := by
      apply mem_le_foldr_max
      rw [List.getD_eq_getElem cl 0 (by omega)]
      exact List.getElem_mem _
    have h5 := hvt i hi
    have h6 := hvc i hi
    rw [h1, h2]
    simp only [List.length_cons, List.length_nil]
    omega
  have hilmax : maxLen il
      = natMax (List.zipWith (fun a b => a + 2 + b) tl cl) := by
    rw [hil, htl]
    rw [maxLen_rangeMap _ B (fun j => tl.getD j 0 + 2 + cl.getD j 0)
      (by
        intro j hj
        have := hilrow j hj
        rw [hil, htl, rangeMap_getD _ B j [] hj] at this
        exact this)]
    unfold natMax
    rw [zipWith_eq_rangeMap (fun a b => a + 2 + b) tl cl 0 0 B htl hcl]
  have hinplen : io.inputs.length = B := by
    rw [hioinp, pad_list_length]
    exact hilB
  have hinprow : ∀ i, i < B → (io.inputs.getD i []).length
      = natMax (List.zipWith (fun a b => a + 2 + b) tl cl) := by
    intro i hi
    rw [hioinp, pad_list_row_length il padE i (by omega), hilmax]
  have hseq : ∀ i, i < B → ((nllSeqOf io).getD i []).length
      = natMax (List.zipWith (fun a b => a + 2 + b) tl cl) := by
    intro i hi
    unfold nllSeqOf
    rw [map_getD _ io.inputs i [] [] (by omega), List.length_take,
      hinprow i hi, hlen2]
    exact min_self _
  have hyrow : ∀ i, i < B →
      ((codec_lm (nllSeqOf io) io.lengths (tl.map (· + 1))).getD i []).length
      = natMax (List.zipWith (fun a b => a + 2 + b) tl cl) := by
    intro i hi
    rw [(hlm (nllSeqOf io) io.lengths (tl.map (· + 1))).2 i, hseq i hi]
  have hxli : ∀ i, i < B → tl.getD i 0 + 2 + cl.getD i 0
      ≤ natMax (List.zipWith (fun a b => a + 2 + b) tl cl) := by
    intro i hi
    apply mem_le_foldr_max
    rw [zipWith_eq_rangeMap (fun a b => a + 2 + b) tl cl 0 0 B htl hcl]
    exact List.mem_map.mpr ⟨i, List.mem_range.mpr hi, rfl⟩
  have hslicelen : ∀ i, i < B →
      ((((codec_lm (nllSeqOf io) io.lengths (tl.map (· + 1))).getD i
        []).drop (tl.getD i 0 + 1)).take (cl.getD i 0 + 1)).length
      = cl.getD i 0 + 1 := by
    intro i hi
    rw [List.length_take, List.length_drop, hyrow i hi]
    have := hxli i hi
    omega
  -- reduce the nll call
  unfold nll at hres
  rw [hio] at hres
  simp only [htgOpt, htgl, Option.some.injEq, Prod.mk.injEq] at hres
  obtain ⟨h1, h2, h3, h4⟩ := hres
  subst h1
  subst h2
  subst h3
  subst h4
  have hmin : min tl.length cl.length = B := by omega
  have hrowsLL : ∀ j, j < B →
      ((((codec_lm (nllSeqOf io) io.lengths (tl.map (· + 1))).getD j
        []).drop (tl.getD j 0 + 1)).take
        (tl.getD j 0 + 2 + cl.getD j 0 - (tl.getD j 0 + 1))).length
      = cl.getD j 0 + 1 := by
    intro j hj
    rw [show tl.getD j 0 + 2 + cl.getD j 0 - (tl.getD j 0 + 1)
      = cl.getD j 0 + 1 from by omega]
    exact hslicelen j hj
  have hmapeq : (List.range B).map (fun j => cl.getD j 0 + 1)
      = cl.map (fun x => x + 1) := by
    apply List.ext_getElem
    · simp [hcl]
    · intro j hj1 hj2
      simp only [List.getElem_map, List.getElem_range]
      rw [List.getD_eq_getElem cl 0 (by
        simp only [List.length_map] at hj2
        omega)]
  have hLLmax : maxLen ((List.range B).map (fun j =>
      (((codec_lm (nllSeqOf io) io.lengths (tl.map (· + 1))).getD j
        []).drop (tl.getD j 0 + 1)).take
        (tl.getD j 0 + 2 + cl.getD j 0 - (tl.getD j 0 + 1))))
      = natMax cl + 1 := by
    rw [maxLen_rangeMap _ B (fun j => cl.getD j 0 + 1) hrowsLL, hmapeq]
    exact natMax_map_add_one cl hclne
  refine ⟨rfl, ?_, ?_⟩
  · intro i hi
    refine ⟨?_, hslicelen i hi⟩
    have hiLL : i < ((List.range (min tl.length cl.length)).map (fun j =>
        (((codec_lm (nllSeqOf io) io.lengths (tl.map (· + 1))).getD j
          []).drop (tl.getD j 0 + 1)).take
          (tl.getD j 0 + 2 + cl.getD j 0 - (tl.getD j 0 + 1)))).length := by
      simp only [List.length_map, List.length_range]
      omega
    rw [pad_list_getD _ padA i hiLL, hmin, rangeMap_getD _ B i [] hi]
    rw [show tl.getD i 0 + 2 + cl.getD i 0 - (tl.getD i 0 + 1)
      = cl.getD i 0 + 1 from by omega]
    rw [hslicelen i hi, hLLmax]
    rw [show natMax cl + 1 - (cl.getD i 0 + 1) = natMax cl - cl.getD i 0
      from by omega]
  · intro i t q hi hclt ht hq
    have htt : ((pad_list ((List.range (min tl.length cl.length)).map
        (fun j => (((codec_lm (nllSeqOf io) io.lengths
            (tl.map (· + 1))).getD j []).drop (tl.getD j 0 + 1)).take
          (tl.getD j 0 + 2 + cl.getD j 0 - (tl.getD j 0 + 1))))
        padA).headD []).length = natMax cl + 1 := by
      rw [headD_eq_getD, pad_list_row_length _ padA 0 (by
        simp only [List.length_map, List.length_range]
        omega), hmin, hLLmax]
    rw [htext, rangeMap_getD _ B i [] hi, htt,
      rangeMap_getD _ (natMax cl + 1) t [] ht,
      rangeMap_getD _ predict_nq q 1 hq]
    have hceLen : (criterion_ce (pad_list
        ((List.range (min tl.length cl.length)).map
          (fun j => (((codec_lm (nllSeqOf io) io.lengths
              (tl.map (· + 1))).getD j []).drop (tl.getD j 0 + 1)).take
            (tl.getD j 0 + 2 + cl.getD j 0 - (tl.getD j 0 + 1)))) padA)
        (tg0.map (fun r => r.take (natMax (cl.map (fun x => x + 1)))))).length
        = B * ((natMax cl + 1) * predict_nq) := by
      rw [hce, pad_list_length]
      simp only [List.length_map, List.length_range]
      rw [htt, hmin]
    have hmaskRows : ∀ r2 ∈ make_pad_mask ((cl.map (fun x => x + 1)).map
        (fun l => l * predict_nq)),
        r2.length = (natMax cl + 1) * predict_nq := by
      intro r2 hr2
      unfold make_pad_mask at hr2
      rw [List.mem_map] at hr2
      obtain ⟨l0, hl0, rfl⟩ := hr2
      rw [List.length_map, List.length_range, natMax_map_mul,
        natMax_map_add_one cl hclne]
    have hmaskCount : (make_pad_mask ((cl.map (fun x => x + 1)).map
        (fun l => l * predict_nq))).length = B := by
      unfold make_pad_mask
      simp [hcl]
    have hmaskLen : (make_pad_mask ((cl.map (fun x => x + 1)).map
        (fun l => l * predict_nq))).flatten.length
        = B * ((natMax cl + 1) * predict_nq) := by
      rw [flatten_length_uniform _ _ hmaskRows, hmaskCount]
    have hidx := idx_lt_mul i t q B (natMax cl + 1) predict_nq hi ht hq
    rw [zipWith_getD _ _ _ _ 0 0 false
      (by rw [hceLen]; exact hidx) (by rw [hmaskLen]; exact hidx)]
    have hmaskval : (make_pad_mask ((cl.map (fun x => x + 1)).map
        (fun l => l * predict_nq))).flatten.getD
        (i * ((natMax cl + 1) * predict_nq) + t * predict_nq + q) false
        = true := by
      rw [show i * ((natMax cl + 1) * predict_nq) + t * predict_nq + q
        = i * ((natMax cl + 1) * predict_nq) + (t * predict_nq + q)
        from by ring]
      rw [flatten_getD_uniform _ _ hmaskRows i (t * predict_nq + q)
        (by rw [hmaskCount]; omega)
        (sub_idx_lt t q (natMax cl + 1) predict_nq ht hq) false]
      unfold make_pad_mask
      rw [map_getD _ _ i [] 0 (by simp only [List.length_map]; omega)]
      rw [rangeMap_getD _ _ (t * predict_nq + q) false (by
        rw [natMax_map_mul, natMax_map_add_one cl hclne]
        exact sub_idx_lt t q (natMax cl + 1) predict_nq ht hq)]
      rw [map_getD _ _ i 0 0 (by simp only [List.length_map]; omega)]
      rw [map_getD _ cl i 0 0 (by omega)]
      apply decide_eq_true
      calc (cl.getD i 0 + 1) * predict_nq ≤ t * predict_nq :=
            Nat.mul_le_mul_right predict_nq hclt
      _ ≤ t * predict_nq + q := Nat.le_add_right _ q
    rw [hmaskval]
    simp

/-- Witness for C5: a concrete two-example batch with the identity language
model and a constant-9 loss kernel; the padded nll position (0, 2, 0) is
zeroed by the pad mask and the kept logits row 0 is the span
`y[0, 2:4]` padded with one zero. -/
theorem nll_spec_witness :
    ((nll (fun n => (n : ℤ) + 10) (fun z => z * 100) 0 (0 : ℤ) 1 4
        (fun s _ _ => s)
        (fun lg _ => List.replicate
          (lg.length * ((lg.headD []).length * 1)) (9 : ℚ))
        [[5], [6, 7]] [1, 2] [[[3]], [[2], [1]]] [1, 2]).map
          (fun r => ((r.1.getD 0 []).getD 2 []).getD 0 1) = some 0) ∧
    ((nll (fun n => (n : ℤ) + 10) (fun z => z * 100) 0 (0 : ℤ) 1 4
        (fun s _ _ => s)
        (fun lg _ => List.replicate
          (lg.length * ((lg.headD []).length * 1)) (9 : ℚ))
        [[5], [6, 7]] [1, 2] [[[3]], [[2], [1]]] [1, 2]).map
          (fun r => r.2.1.getD 0 []) = some [11, 300, 0]) := by
  have hprep : nllPrep (fun n => (n : ℤ) + 10) (fun z => z * 100) 0 1 4
      [[5], [6, 7]] [1, 2] [[[3]], [[2], [1]]] [1, 2]
      = some ⟨[[10, 5, 11, 300, 0, 0], [10, 6, 7, 11, 200, 100]], [4, 6],
          some [[[3], [4], [0]], [[2], [1], [4]]], some [2, 3]⟩ := by rfl
  have hnll : nll (fun n => (n : ℤ) + 10) (fun z => z * 100) 0 (0 : ℤ) 1 4
      (fun s _ _ => s)
      (fun lg _ => List.replicate
        (lg.length * ((lg.headD []).length * 1)) (9 : ℚ))
      [[5], [6, 7]] [1, 2] [[[3]], [[2], [1]]] [1, 2]
      = some ([[[9], [9], [0]], [[9], [9], [9]]],
          [[11, 300, 0], [11, 200, 100]],
          [[[3], [4], [0]], [[2], [1], [4]]], [2, 3]) := by rfl
  have h := nll_spec (fun n => (n : ℤ) + 10) (fun z => z * 100) 0 (0 : ℤ)
    1 4 (fun s _ _ => s)
    (fun lg _ => List.replicate
      (lg.length * ((lg.headD []).length * 1)) (9 : ℚ))
    [[5], [6, 7]] [1, 2] [[[3]], [[2], [1]]] [1, 2] 2
    (by omega) rfl rfl rfl rfl
    (by intro i hi; interval_cases i <;> decide)
    (by intro i hi; interval_cases i <;> decide)
    (by intro row hrow g hg; fin_cases hrow <;> fin_cases hg <;> rfl)
    (fun s xl tl2 => ⟨rfl, fun i => rfl⟩)
    (fun lg tg => List.length_replicate _ _)
    _ _ _ _ _ hprep hnll
  constructor
  · rw [hnll]
    exact congrArg some
      (h.2.2 0 2 0 (by omega) (by decide) (by decide) (by omega))
  · rw [hnll]
    exact congrArg some ((h.2.1 0 (by omega)).1.trans (by decide))

end LauraTSE
